import Mathlib

/-!
# liquidsfz: region cleanup of the Hydrogen importer and the block renderer of Synth

A shallow embedding of

* `cleanup_regions` (src/lib/hydrogenimport.cc),
* `Synth::process_audio` and `Synth::process` (src/lib/synth.cc),

together with the properties established about them.
-/

namespace LiquidSFZInternal

/-! ## hydrogenimport.cc : `Region` and `cleanup_regions` -/

/-- The `struct Region` of hydrogenimport.cc: a sample name and a velocity range. -/
structure Region where
  sample : String
  lovel : Int
  hivel : Int
deriving DecidableEq, Repr

/-- Two's-complement reduction of an integer to the range of a 32 bit `int`. -/
def wrap_int (x : Int) : Int :=
  (x + 2147483648) % 4294967296 - 2147483648

/-- The expression `abs (note - r.lovel)` on `int` operands: the difference and
the absolute value are both taken in 32 bit two's-complement arithmetic. -/
def lovel_dist (note lovel : Int) : Int :=
  wrap_int ((wrap_int (note - lovel)).natAbs : Int)

/-- First inner loop of `cleanup_regions` (lines 53-61): scan the regions in
order and stop (`break`) at the first one whose range contains `note`.  The
result is the index of that region (the pointer `&r`), `none` is `nullptr`.
`idx` is the index of the head of the list. -/
def find_in_range (note : Int) : List Region → Nat → Option Nat
  | [], _ => none
  | r :: rs, idx =>
    if r.lovel ≤ note ∧ r.hivel ≥ note then some idx
    else find_in_range note rs (idx + 1)

/-- Second inner loop of `cleanup_regions` (lines 65-74): scan all regions,
carrying `best_dist` and the slot `note_region[note]`; a region strictly closer
than `best_dist` replaces the slot. -/
def find_closest (note : Int) : List Region → Nat → Int × Option Nat → Int × Option Nat
  | [], _, st => st
  | r :: rs, idx, (best_dist, slot) =>
    let dist := lovel_dist note r.lovel
    if dist < best_dist then find_closest note rs (idx + 1) (dist, some idx)
    else find_closest note rs (idx + 1) (best_dist, slot)

/-- Body of the first step for one note (lines 53-75): the value stored in
`note_region[note]`. -/
def assign_note (regions : List Region) (note : Int) : Option Nat :=
  match find_in_range note regions 0 with
  | some idx => some idx
  | none => (find_closest note regions 0 (128, none)).2

/-- The table `note_region` after the first step: 128 slots, slot 0 is never
written and stays `nullptr`, slot `note` for `1 ≤ note ≤ 127` holds
`assign_note regions note`. -/
def note_region (regions : List Region) (note : Nat) : Option Nat :=
  if 1 ≤ note ∧ note ≤ 127 then assign_note regions (note : Int) else none

/-- One iteration of the loop of lines 82-91 for the region with index `idx`:
update the running `(lovel, hivel)` with `note` when the note belongs to the region. -/
def rederive_step (nr : Nat → Option Nat) (idx : Nat) (acc : Int × Int) (note : Nat) : Int × Int :=
  if nr note = some idx then
    (if (note : Int) < acc.1 then (note : Int) else acc.1,
     if (note : Int) > acc.2 then (note : Int) else acc.2)
  else acc

/-- The loop of lines 80-91: start from `lovel = 128, hivel = 0` and visit the
notes 1, 2, ..., 127. -/
def rederive (nr : Nat → Option Nat) (idx : Nat) : Int × Int :=
  (List.range' 1 127).foldl (rederive_step nr idx) (128, 0)

/-- The second step (lines 78-94) over the regions from index `idx` on. -/
def rewrite_regions (nr : Nat → Option Nat) : List Region → Nat → List Region
  | [], _ => []
  | r :: rs, idx =>
    { r with lovel := (rederive nr idx).1, hivel := (rederive nr idx).2 }
      :: rewrite_regions nr rs (idx + 1)

/-- The function `cleanup_regions`: assign the notes, then rewrite every region. -/
def cleanup_regions (regions : List Region) : List Region :=
  rewrite_regions (note_region regions) regions 0

/-! ## voice.hh : the state of a voice -/

/-- The `enum State` of `Voice` (voice.hh, lines 131-136). -/
inductive Voice.State where
  | ACTIVE
  | SUSTAIN
  | RELEASED
  | IDLE
deriving DecidableEq, Repr

/-- A `Voice`: its `state_` and, in `rest`, all its other members (they are
only touched by `Voice::process` and by the event handlers). -/
structure Voice (α : Type) where
  state_ : Voice.State
  rest : α

/-! ## synth.cc : `Synth::process_audio` and `Synth::process` -/

/-- Number of values of the 32 bit type `uint`. -/
def UINT_SIZE : Nat := 4294967296

/-- The difference `a - b` of two `uint` values, which wraps around modulo `2^32`. -/
def uint_sub (a b : Nat) : Nat :=
  (a + UINT_SIZE - b) % UINT_SIZE

/-- Modelled from the spec: `Event::Type` is declared in synth.hh, which is not
among the sources.  The four types `Synth::process` names, and `other code` for
every value that reaches the `default:` branch of its `switch`. -/
inductive EventType where
  | NOTE_ON
  | NOTE_OFF
  | CC
  | PITCH_BEND
  | other (code : Nat)
deriving DecidableEq, Repr

/-- Modelled from the spec: `struct Event` is declared in synth.hh, which is not
among the sources: `{ type, channel, arg1, arg2, time_frames }`; `time_frames` is
a `uint`, so that `min <uint> (event.time_frames, n_frames)` converts nothing. -/
structure Event where
  time_frames : Nat
  type : EventType
  channel : Nat
  arg1 : Nat
  arg2 : Nat
deriving DecidableEq, Repr

/-- The two output buffers `outputs[0]` and `outputs[1]`, as the memory reached
from each pointer: sample `k` of channel `c`. -/
abbrev Outputs (β : Type) := (Nat → β) × (Nat → β)

/-- Modelled from the spec: `zero_float_block (n, p)` is defined in a header that
is not among the sources; it stores zero in `p[0]`, ..., `p[n - 1]` ("starts by
zeroing them"). -/
def zero_float_block {β : Type} [Zero β] (n : Nat) (p : Nat → β) : Nat → β :=
  fun k => if k < n then 0 else p k

/-- Modelled from the spec: the members of `class Synth` (synth.hh is not among
the sources) that `process` and `process_audio` use: the voice pool `voices_`,
the event queue `events`, the sample-frame counter `global_frame_count` (a
monotonic 64 bit counter, taken as a natural number), and in `rest` everything
else the event handlers maintain (channel and controller state). -/
structure Synth (α χ : Type) where
  voices_ : List (Voice α)
  events : List Event
  global_frame_count : Nat
  rest : χ

/-- The code called by `process` and `process_audio` that is not among the
sources: the constant `MAX_BLOCK_SIZE`, `Voice::process` (it renders `todo`
frames of one voice into the buffers from sample `start` on and may change the
voice) and the four event handlers (they act on the voice pool and on the rest
of the synth state, and can read the frame counter). -/
structure Env (α χ β : Type) where
  MAX_BLOCK_SIZE : Nat
  voice_process : χ → Nat → Voice α → Outputs β → Nat → Nat → Voice α × Outputs β
  note_on : Nat → χ × List (Voice α) → Nat → Nat → Nat → χ × List (Voice α)
  note_off : Nat → χ × List (Voice α) → Nat → Nat → χ × List (Voice α)
  update_cc : Nat → χ × List (Voice α) → Nat → Nat → Nat → χ × List (Voice α)
  update_pitch_bend : Nat → χ × List (Voice α) → Nat → Nat → χ × List (Voice α)

/-- The calls a run of `process` makes, in the order it makes them. -/
inductive Call where
  | process_audio (n_frames offset : Nat)
  | voice_process (index start todo : Nat)
  | note_on (channel arg1 arg2 : Nat)
  | note_off (channel arg1 : Nat)
  | update_cc (channel arg1 arg2 : Nat)
  | update_pitch_bend (channel arg1 : Nat)
  | debug (code : Nat)
deriving DecidableEq, Repr

/-- The loop `for (auto& voice : voices_)` of one sub-block (synth.cc, lines
46-50): every voice whose state is not `IDLE` is processed with the buffers
advanced to sample `start = offset + i`.  `idx` is the index of the head of the
list.  Returns the voices, the buffers and the calls made. -/
def process_voices {α χ β : Type} (env : Env α χ β) (c : χ) (g : Nat) (start todo : Nat) :
    List (Voice α) → Nat → Outputs β → List (Voice α) × Outputs β × List Call
  | [], _, out => ([], out, [])
  | v :: vs, idx, out =>
    if v.state_ ≠ Voice.State.IDLE then
      let r := env.voice_process c g v out start todo
      let rs := process_voices env c g start todo vs (idx + 1) r.2
      (r.1 :: rs.1, rs.2.1, Call.voice_process idx start todo :: rs.2.2)
    else
      let rs := process_voices env c g start todo vs (idx + 1) out
      (v :: rs.1, rs.2.1, rs.2.2)

/-- The loop `while (i < n_frames)` of `process_audio` (lines 37-52), with the
number of iterations bounded by `fuel`: `none` when the fuel does not suffice. -/
def process_audio_loop {α χ β : Type} (env : Env α χ β) (c : χ) (g : Nat)
    (n_frames offset : Nat) :
    Nat → Nat → List (Voice α) → Outputs β → Option (List (Voice α) × Outputs β × List Call)
  | 0, i, voices, out => if i < n_frames then none else some (voices, out, [])
  | fuel + 1, i, voices, out =>
    if i < n_frames then
      let todo := min (n_frames - i) env.MAX_BLOCK_SIZE
      let r := process_voices env c g (offset + i) todo voices 0 out
      match process_audio_loop env c g n_frames offset fuel (i + todo) r.1 r.2.1 with
      | none => none
      | some r2 => some (r2.1, r2.2.1, r.2.2 ++ r2.2.2)
    else some (voices, out, [])

/-- `Synth::process_audio (outputs, n_frames, offset)` (lines 33-54).  The loop
gets `n_frames` iterations, which suffice whenever `MAX_BLOCK_SIZE ≥ 1`; `none`
stands for a loop that does not end.  Returns the synth, the buffers and the
calls made, the call of `process_audio` itself first. -/
def process_audio {α χ β : Type} (env : Env α χ β) (s : Synth α χ) (out : Outputs β)
    (n_frames offset : Nat) : Option (Synth α χ × Outputs β × List Call) :=
  match process_audio_loop env s.rest s.global_frame_count n_frames offset n_frames 0
      s.voices_ out with
  | none => none
  | some r =>
    some ({ s with voices_ := r.1, global_frame_count := s.global_frame_count + n_frames },
          r.2.1, Call.process_audio n_frames offset :: r.2.2)

/-- The call the `switch` of `process` (lines 73-84) makes for an event. -/
def dispatch_call (e : Event) : Call :=
  match e.type with
  | EventType.NOTE_ON => Call.note_on e.channel e.arg1 e.arg2
  | EventType.NOTE_OFF => Call.note_off e.channel e.arg1
  | EventType.CC => Call.update_cc e.channel e.arg1 e.arg2
  | EventType.PITCH_BEND => Call.update_pitch_bend e.channel e.arg1
  | EventType.other code => Call.debug code

/-- The effect of the `switch` of `process` (lines 73-84) on the synth. -/
def dispatch {α χ β : Type} (env : Env α χ β) (s : Synth α χ) (e : Event) : Synth α χ :=
  match e.type with
  | EventType.NOTE_ON =>
    let r := env.note_on s.global_frame_count (s.rest, s.voices_) e.channel e.arg1 e.arg2
    { s with rest := r.1, voices_ := r.2 }
  | EventType.NOTE_OFF =>
    let r := env.note_off s.global_frame_count (s.rest, s.voices_) e.channel e.arg1
    { s with rest := r.1, voices_ := r.2 }
  | EventType.CC =>
    let r := env.update_cc s.global_frame_count (s.rest, s.voices_) e.channel e.arg1 e.arg2
    { s with rest := r.1, voices_ := r.2 }
  | EventType.PITCH_BEND =>
    let r := env.update_pitch_bend s.global_frame_count (s.rest, s.voices_) e.channel e.arg1
    { s with rest := r.1, voices_ := r.2 }
  | EventType.other _ => s

/-- The loop `for (const auto& event : events)` of `process` (lines 63-85) over
the remaining events, entered with the running `offset`.  Returns the synth, the
buffers, the final `offset` and the calls made. -/
def process_events {α χ β : Type} (env : Env α χ β) (n_frames : Nat) :
    List Event → Nat → Synth α χ → Outputs β → Option (Synth α χ × Outputs β × Nat × List Call)
  | [], offset, s, out => some (s, out, offset, [])
  | e :: es, offset, s, out =>
    let new_offset := min e.time_frames n_frames
    match process_audio env s out (uint_sub new_offset offset) offset with
    | none => none
    | some r =>
      match process_events env n_frames es new_offset (dispatch env r.1 e) r.2.1 with
      | none => none
      | some r2 => some (r2.1, r2.2.1, r2.2.2.1, r.2.2 ++ dispatch_call e :: r2.2.2.2)

/-- `Synth::process (outputs, n_frames)` (lines 56-90): zero both buffers, run
the event loop, clear the queue, render the frames after the last event. -/
def process {α χ β : Type} [Zero β] (env : Env α χ β) (s : Synth α χ) (out : Outputs β)
    (n_frames : Nat) : Option (Synth α χ × Outputs β × List Call) :=
  let zeroed : Outputs β := (zero_float_block n_frames out.1, zero_float_block n_frames out.2)
  match process_events env n_frames s.events 0 s zeroed with
  | none => none
  | some r =>
    match process_audio env { r.1 with events := [] } r.2.1
        (uint_sub n_frames r.2.2.1) r.2.2.1 with
    | none => none
    | some r2 => some (r2.1, r2.2.1, r.2.2.2 ++ r2.2.2)

/-! ## Reading off a list of calls -/

/-- The frame counts of the `process_audio` calls of a call list. -/
def audio_frame_counts : List Call → List Nat
  | [] => []
  | Call.process_audio n _ :: cs => n :: audio_frame_counts cs
  | _ :: cs => audio_frame_counts cs

/-- The slices `(offset, n_frames)` of the `process_audio` calls of a call list. -/
def audio_slices : List Call → List (Nat × Nat)
  | [] => []
  | Call.process_audio n offset :: cs => (offset, n) :: audio_slices cs
  | _ :: cs => audio_slices cs

/-- The frame indices rendered by the `process_audio` calls of a call list, in
the order they are rendered: the slice `(offset, n)` renders `offset`, ...,
`offset + n - 1`. -/
def rendered_frames : List Call → List Nat
  | [] => []
  | Call.process_audio n offset :: cs => List.range' offset n ++ rendered_frames cs
  | _ :: cs => rendered_frames cs

/-- The calls of a call list that the `switch` of `process` makes (the event
handlers and `debug`). -/
def dispatched : List Call → List Call
  | [] => []
  | Call.process_audio _ _ :: cs => dispatched cs
  | Call.voice_process _ _ _ :: cs => dispatched cs
  | c :: cs => c :: dispatched cs

/-- The calls of a call list that one of the four event handlers `note_on`,
`note_off`, `update_cc`, `update_pitch_bend` receives. -/
def handler_calls : List Call → List Call
  | [] => []
  | Call.process_audio _ _ :: cs => handler_calls cs
  | Call.voice_process _ _ _ :: cs => handler_calls cs
  | Call.debug _ :: cs => handler_calls cs
  | c :: cs => c :: handler_calls cs

/-- The indices of the voices processed by the `Voice::process` calls of a call list. -/
def processed_voices : List Call → List Nat
  | [] => []
  | Call.voice_process idx _ _ :: cs => idx :: processed_voices cs
  | _ :: cs => processed_voices cs

/-- A call list made of `Voice::process` calls only. -/
def only_voice_calls (tr : List Call) : Prop :=
  ∀ c ∈ tr, ∃ i s t, c = Call.voice_process i s t

/-- Slices that follow each other without gap or overlap, the first one at `start`. -/
def consecutive_from : Nat → List (Nat × Nat) → Prop
  | _, [] => True
  | start, (offset, n) :: rest => offset = start ∧ consecutive_from (offset + n) rest

/-- The frame counts `new_offset - offset` the event loop of `process` hands to
`process_audio`, one per event, when the loop is entered with `offset`. -/
def slice_counts (n_frames : Nat) : List Event → Nat → List Nat
  | [], _ => []
  | e :: es, offset =>
    uint_sub (min e.time_frames n_frames) offset
      :: slice_counts n_frames es (min e.time_frames n_frames)

/-- The value of `offset` when the event loop of `process` is left. -/
def last_offset (n_frames : Nat) : List Event → Nat → Nat
  | [], offset => offset
  | e :: es, _ => last_offset n_frames es (min e.time_frames n_frames)

/-- An event queue whose `time_frames` never decrease. -/
def events_sorted (events : List Event) : Prop :=
  List.Pairwise (fun a b => a.time_frames ≤ b.time_frames) events

instance (events : List Event) : Decidable (events_sorted events) := by
  unfold events_sorted; infer_instance

/-! ## A concrete synth -/

/-- An environment with `MAX_BLOCK_SIZE = 1024`, a `Voice::process` that turns the
voice `IDLE` once it has rendered up to frame 2000 and leaves the buffers alone,
a `note_on` that starts voice 0, and handlers that change nothing else. -/
def sample_env : Env Unit Unit Int where
  MAX_BLOCK_SIZE := 1024
  voice_process := fun _ _ v out start todo =>
    (if 2000 ≤ start + todo then { v with state_ := Voice.State.IDLE } else v, out)
  note_on := fun _ st _ _ _ =>
    (st.1, match st.2 with
      | [] => []
      | v :: vs => { v with state_ := Voice.State.ACTIVE } :: vs)
  note_off := fun _ st _ _ => st
  update_cc := fun _ st _ _ _ => st
  update_pitch_bend := fun _ st _ _ => st

/-- A synth with an idle voice 0, a sounding voice 1, and three queued events at
frames 3, 12 and 40 (the second of an unsupported type). -/
def sample_synth : Synth Unit Unit where
  voices_ := [⟨Voice.State.IDLE, ()⟩, ⟨Voice.State.ACTIVE, ()⟩]
  events := [⟨3, EventType.NOTE_ON, 0, 60, 100⟩, ⟨12, EventType.other 0, 0, 0, 0⟩,
    ⟨40, EventType.CC, 1, 7, 90⟩]
  global_frame_count := 100
  rest := ()

/-- A synth whose queue is out of order: an event at frame 10 before one at frame 5. -/
def unsorted_synth : Synth Unit Unit where
  voices_ := []
  events := [⟨10, EventType.CC, 0, 7, 90⟩, ⟨5, EventType.CC, 0, 7, 80⟩]
  global_frame_count := 0
  rest := ()

/-- A synth at rest: two idle voices and an empty queue. -/
def silent_synth : Synth Unit Unit where
  voices_ := [⟨Voice.State.IDLE, ()⟩, ⟨Voice.State.IDLE, ()⟩]
  events := []
  global_frame_count := 0
  rest := ()

/-- Output buffers holding left-over samples 7 (left) and 8 (right). -/
def sample_out : Outputs Int := (fun _ => 7, fun _ => 8)

/-! ## hydrogenimport.cc : `HydrogenImport::parse` -/

/-- What `parse` reads of one `<instrument>` node of the drum-kit document
(the XML library is not part of the sources).  `name` is the text of the `<name>`
child, `volume` the text `%f` prints for `db_from_factor (volume, -144)` (floating
point, passed through), `component_layers` the regions `do_layer` builds for the
`<layer>` children of the `<instrumentComponent>` child and `layers` those for the
`<layer>` children of the instrument itself (each with its `lrint`-rounded
`lovel`, `hivel`), `filename` the text of the `<filename>` child when there is one. -/
structure Instrument where
  name : String
  volume : String
  component_layers : List Region
  layers : List Region
  filename : Option String
deriving DecidableEq, Repr

/-- The pieces of text `parse` appends to `out`, one per `string_printf` call. -/
inductive Line where
  | comment (name : String)
  | group_header
  | key (key : Int)
  | loop_mode
  | amp_velcurve
  | group (group : Int)
  | off_by (group : Int)
  | volume (volume : String)
  | blank
  | region_header
  | velocities (lovel hivel : Int)
  | sample (sample : String)
deriving DecidableEq, Repr

/-- The text of a piece, as `string_printf` builds it. -/
def Line.text : Line → String
  | Line.comment n => "// " ++ n ++ "\n"
  | Line.group_header => "<group>\n"
  | Line.key k => "  key=" ++ toString k ++ "\n"
  | Line.loop_mode => "  loop_mode=one_shot\n"
  | Line.amp_velcurve => "  amp_velcurve_1=0.008\n"
  | Line.group g => "  group=" ++ toString g ++ "\n"
  | Line.off_by g => "  off_by=" ++ toString g ++ "\n"
  | Line.volume v => "  volume=" ++ v ++ "\n"
  | Line.blank => "\n"
  | Line.region_header => "  <region>\n"
  | Line.velocities lo hi =>
    "    lovel=" ++ toString lo ++ " hivel=" ++ toString hi ++ "\n"
  | Line.sample s => "    sample=" ++ s ++ "\n"

/-- The running variables of the instrument loop of `parse` (lines 137-139) and
the output text. -/
structure ParseState where
  instrument_index : Int
  region_count : Nat
  group : Int
  out : List Line

/-- The loop `for (auto r : regions)` of `parse` (lines 182-190): one `<region>`
block per region, counted in `region_count`. -/
def emit_regions : List Region → ParseState → ParseState
  | [], st => st
  | r :: rs, st =>
    emit_regions rs
      { st with
        out := st.out ++ [Line.region_header, Line.velocities r.lovel r.hivel,
          Line.sample r.sample, Line.blank]
        region_count := st.region_count + 1 }

/-- The block of lines 193-203: an instrument with a `<filename>` child of its own
gets one more `<region>` block. -/
def emit_filename (filename : Option String) (st : ParseState) : ParseState :=
  match filename with
  | some sample =>
    { st with
      out := st.out ++ [Line.region_header, Line.sample sample, Line.blank]
      region_count := st.region_count + 1 }
  | none => st

/-- The body of the instrument loop of `parse` (lines 142-207) for one instrument. -/
def parse_instrument (instrument : Instrument) (st : ParseState) : ParseState :=
  let key := st.instrument_index + 36
  let st1 : ParseState :=
    { st with
      out := st.out ++ [Line.comment instrument.name, Line.group_header, Line.key key,
        Line.loop_mode, Line.amp_velcurve, Line.group st.group, Line.off_by st.group,
        Line.volume instrument.volume, Line.blank] }
  let regions := cleanup_regions (instrument.component_layers ++ instrument.layers)
  let st2 := emit_regions regions st1
  let st3 := emit_filename instrument.filename st2
  { st3 with
    out := st3.out ++ [Line.blank]
    group := st3.group + 1
    instrument_index := st3.instrument_index + 1 }

/-- The instrument loop of `parse` (line 140) over the remaining instruments. -/
def parse_instruments : List Instrument → ParseState → ParseState
  | [], st => st
  | instrument :: rest, st => parse_instruments rest (parse_instrument instrument st)

/-- `HydrogenImport::parse (filename, out)`: `doc` is the list of instruments of
the loaded document, `none` when `load_file` fails.  Returns the result and the
new `out`. -/
def parse (doc : Option (List Instrument)) (out : List Line) : Bool × List Line :=
  match doc with
  | none => (false, out)
  | some instruments =>
    let st := parse_instruments instruments
      { instrument_index := 0, region_count := 0, group := 1, out := out }
    if st.region_count = 0 then (false, st.out) else (true, st.out)

/-- The number of `<region>` blocks in a piece of output text. -/
def region_blocks (lines : List Line) : Nat :=
  lines.count Line.region_header

/-- The number of regions one instrument contributes: its layers of both kinds
and its own `<filename>`. -/
def instrument_regions (instrument : Instrument) : Nat :=
  instrument.component_layers.length + instrument.layers.length +
    (if instrument.filename.isSome then 1 else 0)

/-! ## voice.hh : `SampleReader` -/

/-- Modelled from the spec: `SampleCache::Entry` is declared in a header that is
not among the sources; of the cached sample `SampleReader` reads the sample count
`n_samples` and the channel count `channels`. -/
structure Entry where
  n_samples : Int
  channels : Int
deriving DecidableEq, Repr

/-- The members of `class SampleReader` (voice.hh, lines 33-42).  The two
pointers are `none` for `nullptr`; `samples_` is the interpolation window
`std::array<float, 6 * 4>`. -/
structure SampleReader (H β : Type) where
  play_handle_ : Option H
  cached_sample_ : Option Entry
  relative_pos_ : Int
  end_pos_ : Int
  last_pos_ : Int
  channels_ : Int
  loop_start_ : Int
  loop_end_ : Int
  samples_ : List β
  last_index_ : Int

/-- `SampleReader::restart` (voice.hh, lines 44-56).  The division by `channels_`
has no result for `channels_ = 0` (`none`); the value assigned to the `int`
`end_pos_` is reduced to 32 bits. -/
def SampleReader.restart {H β : Type} [Zero β] (_reader : SampleReader H β) (play_handle : H)
    (cached_sample : Entry) (upsample : Int) : Option (SampleReader H β) :=
  let channels_ := cached_sample.channels
  if channels_ = 0 then none
  else
    some
      { channels_ := channels_
        relative_pos_ := 0
        last_pos_ := 0
        end_pos_ := wrap_int ((Int.tdiv cached_sample.n_samples channels_ + 32) * upsample)
        play_handle_ := some play_handle
        cached_sample_ := some cached_sample
        loop_start_ := -1
        loop_end_ := -1
        last_index_ := -1000
        samples_ := List.replicate 24 0 }

/-- `SampleReader::set_loop` (voice.hh, lines 57-62). -/
def SampleReader.set_loop {H β : Type} (reader : SampleReader H β) (loop_start loop_end : Int) :
    SampleReader H β :=
  { reader with loop_start_ := loop_start, loop_end_ := loop_end }

/-- `SampleReader::done` (voice.hh, lines 67-71). -/
def SampleReader.done {H β : Type} (reader : SampleReader H β) : Bool :=
  decide (reader.relative_pos_ > reader.end_pos_)

/-- A reader in the middle of a looped sample. -/
def sample_reader : SampleReader Nat Int where
  play_handle_ := some 1
  cached_sample_ := some ⟨96000, 2⟩
  relative_pos_ := 4711
  end_pos_ := 48032
  last_pos_ := 4700
  channels_ := 2
  loop_start_ := 1000
  loop_end_ := 40000
  samples_ := [3, 1, 4, 1, 5, 9, 2, 6, 5, 3, 5, 8, 9, 7, 9, 3, 2, 3, 8, 4, 6, 2, 6, 4]
  last_index_ := 4708

/-! ## synth.cc : the log level -/

/-- Modelled from the spec: `enum class Log` is declared in liquidsfz.hh, which is
not among the sources; "severities ordered DEBUG < INFO < WARNING < ERROR". -/
inductive Log where
  | DEBUG
  | INFO
  | WARNING
  | ERROR
deriving DecidableEq, Repr

/-- The position of a severity in the order `DEBUG < INFO < WARNING < ERROR`. -/
def Log.rank : Log → Nat
  | Log.DEBUG => 0
  | Log.INFO => 1
  | Log.WARNING => 2
  | Log.ERROR => 3

instance : LE Log := ⟨fun a b => a.rank ≤ b.rank⟩

instance (a b : Log) : Decidable (a ≤ b) :=
  inferInstanceAs (Decidable (a.rank ≤ b.rank))

/-- `Synth::set_log_level` (synth.cc, lines 118-122): the new value of `log_level_`. -/
def Synth.set_log_level (log_level : Log) : Log :=
  log_level

/-- `Synth::error` (synth.cc, lines 150-161), given the member `log_level_`: the
severities of the `logv` calls it makes. -/
def Synth.error (log_level_ : Log) : List Log :=
  if log_level_ ≤ Log.ERROR then [Log.ERROR] else []

/-- `Synth::warning` (synth.cc, lines 163-174). -/
def Synth.warning (log_level_ : Log) : List Log :=
  if log_level_ ≤ Log.WARNING then [Log.WARNING] else []

/-- `Synth::info` (synth.cc, lines 176-187). -/
def Synth.info (log_level_ : Log) : List Log :=
  if log_level_ ≤ Log.INFO then [Log.INFO] else []

/-- `Synth::debug` (synth.cc, lines 189-200). -/
def Synth.debug (log_level_ : Log) : List Log :=
  if log_level_ ≤ Log.DEBUG then [Log.DEBUG] else []

/-! ## The assignment of velocities to regions, as the specification words it -/

/-- The region a velocity `v` goes to, in the words of the specification: the
first region in list order whose input range contains `v`; when there is none,
the region with the smallest distance `|v - lovel|`, provided that distance is
`< 128`, and of several regions at that distance the one with the lowest index. -/
def reference_assign (regions : List Region) (v : Int) : Option Nat :=
  match regions.findIdx? (fun r => decide (r.lovel ≤ v ∧ v ≤ r.hivel)) with
  | some i => some i
  | none =>
    regions.findIdx? (fun r =>
      decide ((v - r.lovel).natAbs < 128 ∧
        ∀ q ∈ regions, (v - r.lovel).natAbs ≤ (v - q.lovel).natAbs))

/-- Every `lovel` is an `int` for which `note - lovel` can be computed without
overflow for the notes 1..127. -/
def lovel_in_range (regions : List Region) : Prop :=
  ∀ r ∈ regions, -2147483520 ≤ r.lovel ∧ r.lovel ≤ 2147483647

instance (regions : List Region) : Decidable (lovel_in_range regions) := by
  unfold lovel_in_range; infer_instance

/-- A well-formed region list: every range satisfies `1 ≤ lovel ≤ hivel ≤ 127`
and every velocity 1..127 lies in the range of exactly one region. -/
def well_formed (regions : List Region) : Prop :=
  (∀ r ∈ regions, 1 ≤ r.lovel ∧ r.lovel ≤ r.hivel ∧ r.hivel ≤ 127) ∧
  ∀ v ∈ List.range' 1 127,
    regions.countP (fun r => decide (r.lovel ≤ (v : Int) ∧ (v : Int) ≤ r.hivel)) = 1

instance (regions : List Region) : Decidable (well_formed regions) := by
  unfold well_formed; infer_instance

/-! ## The sub-blocks of `process_audio` -/

/-- The sub-blocks `(offset + i, todo)` the loop of `process_audio` goes through
from the loop variable `i` on (lines 37-52, without the voices), `fuel` bounding
the number of iterations as in `process_audio_loop`. -/
def sub_blocks (max_block_size n_frames offset : Nat) : Nat → Nat → Option (List (Nat × Nat))
  | 0, i => if i < n_frames then none else some []
  | fuel + 1, i =>
    if i < n_frames then
      match sub_blocks max_block_size n_frames offset fuel
          (i + min (n_frames - i) max_block_size) with
      | none => none
      | some bs => some ((offset + i, min (n_frames - i) max_block_size) :: bs)
    else some []

/-- The voice loop (lines 46-50) run for each sub-block of a list in turn. -/
def render_blocks {α χ β : Type} (env : Env α χ β) (c : χ) (g : Nat) :
    List (Nat × Nat) → List (Voice α) → Outputs β → List (Voice α) × Outputs β × List Call
  | [], voices, out => (voices, out, [])
  | b :: bs, voices, out =>
    let r := process_voices env c g b.1 b.2 voices 0 out
    let r2 := render_blocks env c g bs r.1 r.2.1
    (r2.1, r2.2.1, r.2.2 ++ r2.2.2)

/-- An event of one of the four types `process` has a handler for. -/
def Event.supported (e : Event) : Bool :=
  match e.type with
  | EventType.other _ => false
  | _ => true

/-! ## Replaying a list of calls -/

/-- The effect on the synth of one call of the `switch` of `process`: the call
`note_on (channel, arg1, arg2)` is the handler `note_on` applied to the synth as it
is at that moment, and so on for the other handlers; `debug` only logs. -/
def apply_call {α χ β : Type} (env : Env α χ β) (c : Call) (s : Synth α χ) : Synth α χ :=
  match c with
  | Call.note_on channel arg1 arg2 =>
    { s with
      rest := (env.note_on s.global_frame_count (s.rest, s.voices_) channel arg1 arg2).1
      voices_ := (env.note_on s.global_frame_count (s.rest, s.voices_) channel arg1 arg2).2 }
  | Call.note_off channel arg1 =>
    { s with
      rest := (env.note_off s.global_frame_count (s.rest, s.voices_) channel arg1).1
      voices_ := (env.note_off s.global_frame_count (s.rest, s.voices_) channel arg1).2 }
  | Call.update_cc channel arg1 arg2 =>
    { s with
      rest := (env.update_cc s.global_frame_count (s.rest, s.voices_) channel arg1 arg2).1
      voices_ := (env.update_cc s.global_frame_count (s.rest, s.voices_) channel arg1 arg2).2 }
  | Call.update_pitch_bend channel arg1 =>
    { s with
      rest := (env.update_pitch_bend s.global_frame_count (s.rest, s.voices_) channel arg1).1
      voices_ := (env.update_pitch_bend s.global_frame_count (s.rest, s.voices_) channel arg1).2 }
  | _ => s

/-- A list of calls carried out one after the other on a synth and its buffers:
a `process_audio` call renders its slice, a handler call applies the handler; the
`Voice::process` calls listed after a `process_audio` call are the ones made
inside it and are passed over. -/
def replay {α χ β : Type} (env : Env α χ β) :
    List Call → Synth α χ → Outputs β → Option (Synth α χ × Outputs β)
  | [], s, out => some (s, out)
  | Call.process_audio n_frames offset :: cs, s, out =>
    match process_audio env s out n_frames offset with
    | none => none
    | some r => replay env cs r.1 r.2.1
  | c :: cs, s, out => replay env cs (apply_call env c s) out

/-- A synth whose queue holds an event of an unsupported type out of time order. -/
def unsorted_unsupported_synth : Synth Unit Unit where
  voices_ := []
  events := [⟨10, EventType.CC, 0, 7, 90⟩, ⟨5, EventType.other 0, 0, 0, 0⟩]
  global_frame_count := 0
  rest := ()

/-! ## hydrogenimport.cc : what `parse` reads of an instrument -/

/-- An `<instrument>` node of the drum-kit document as it stands in the file:
`components` holds, for each `<instrumentComponent>` child in document order, the
regions of its `<layer>` children; the other members are those of `Instrument`. -/
structure InstrumentNode where
  name : String
  volume : String
  components : List (List Region)
  layers : List Region
  filename : Option String
deriving DecidableEq, Repr

/-- What `parse` reads of an `<instrument>` node (lines 142-178):
`instrument.child ("instrumentComponent")` is the first child of that name (a node
without children when there is none), so only the layers of the first component
are read, followed by the `<layer>` children of the instrument itself. -/
def read_instrument (node : InstrumentNode) : Instrument where
  name := node.name
  volume := node.volume
  component_layers := node.components.headD []
  layers := node.layers
  filename := node.filename

/-- `HydrogenImport::parse` on a document given by its `<instrument>` nodes,
`none` when `load_file` fails. -/
def parse_document (doc : Option (List InstrumentNode)) (out : List Line) : Bool × List Line :=
  parse (doc.map (fun nodes => nodes.map read_instrument)) out

/-- The number of layers of an instrument: those of all its components and its own. -/
def node_layers (node : InstrumentNode) : Nat :=
  (node.components.map List.length).sum + node.layers.length

/-- The sample names in a piece of output text, in order. -/
def sample_lines : List Line → List String
  | [] => []
  | Line.sample s :: ls => s :: sample_lines ls
  | _ :: ls => sample_lines ls

/-- A kit with one instrument that has two components of one layer each. -/
def two_component_kit : List InstrumentNode :=
  [⟨"Snare", "0.000000", [[⟨"snare_a.wav", 0, 127⟩], [⟨"snare_b.wav", 0, 127⟩]], [], none⟩]

/-! ## Properties of `cleanup_regions` -/

/-- Without overflow `abs (note - r.lovel)` is the distance of the two values. -/
theorem lovel_dist_eq_natAbs (note lovel : Int) (h1 : -2147483647 ≤ note - lovel)
    (h2 : note - lovel ≤ 2147483647) :
    lovel_dist note lovel = ((note - lovel).natAbs : Int) := by
  unfold lovel_dist wrap_int
  omega

theorem rewrite_regions_get (nr : Nat → Option Nat) (rs : List Region) (k i : Nat) :
    (rewrite_regions nr rs k)[i]? =
      (rs[i]?).map (fun r => { r with lovel := (rederive nr (k + i)).1,
                                      hivel := (rederive nr (k + i)).2 }) := by
  induction rs generalizing k i with
  | nil => simp [rewrite_regions]
  | cons r rs ih =>
    cases i with
    | zero => simp [rewrite_regions]
    | succ i =>
      simp only [rewrite_regions, List.getElem?_cons_succ]
      rw [ih]
      have : k + 1 + i = k + (i + 1) := by omega
      rw [this]

/-- Invariant of the re-derivation loop over an arbitrary list of notes. -/
theorem rederive_foldl (nr : Nat → Option Nat) (idx : Nat) (l : List Nat) (acc : Int × Int) :
    ((l.foldl (rederive_step nr idx) acc).1 ≤ acc.1 ∧
      acc.2 ≤ (l.foldl (rederive_step nr idx) acc).2) ∧
    (∀ n ∈ l, nr n = some idx → (l.foldl (rederive_step nr idx) acc).1 ≤ (n : Int) ∧
      (n : Int) ≤ (l.foldl (rederive_step nr idx) acc).2) ∧
    ((l.foldl (rederive_step nr idx) acc).1 = acc.1 ∨
      ∃ n ∈ l, nr n = some idx ∧ (l.foldl (rederive_step nr idx) acc).1 = (n : Int)) ∧
    ((l.foldl (rederive_step nr idx) acc).2 = acc.2 ∨
      ∃ n ∈ l, nr n = some idx ∧ (l.foldl (rederive_step nr idx) acc).2 = (n : Int)) := by
  induction l generalizing acc with
  | nil => simp
  | cons a l ih =>
    have h := ih (rederive_step nr idx acc a)
    simp only [List.foldl_cons]
    obtain ⟨⟨h1, h2⟩, h3, h4, h5⟩ := h
    have hs1 : (rederive_step nr idx acc a).1 ≤ acc.1 := by
      unfold rederive_step; split_ifs <;> simp <;> omega
    have hs2 : acc.2 ≤ (rederive_step nr idx acc a).2 := by
      unfold rederive_step; split_ifs <;> simp <;> omega
    have hs3 : nr a = some idx → (rederive_step nr idx acc a).1 ≤ (a : Int) ∧
        (a : Int) ≤ (rederive_step nr idx acc a).2 := by
      intro hm
      unfold rederive_step; rw [if_pos hm]; split_ifs <;> simp <;> omega
    have hs4 : (rederive_step nr idx acc a).1 = acc.1 ∨
        (nr a = some idx ∧ (rederive_step nr idx acc a).1 = (a : Int)) := by
      unfold rederive_step; split_ifs <;> simp_all
    have hs5 : (rederive_step nr idx acc a).2 = acc.2 ∨
        (nr a = some idx ∧ (rederive_step nr idx acc a).2 = (a : Int)) := by
      unfold rederive_step; split_ifs <;> simp_all
    refine ⟨⟨le_trans h1 hs1, le_trans hs2 h2⟩, ?_, ?_, ?_⟩
    · intro n hn hm
      rcases List.mem_cons.mp hn with rfl | hn
      · exact ⟨le_trans h1 (hs3 hm).1, le_trans (hs3 hm).2 h2⟩
      · exact h3 n hn hm
    · rcases h4 with h4 | ⟨n, hn, hm, he⟩
      · rcases hs4 with hs4 | ⟨hm, he⟩
        · left; exact h4.trans hs4
        · right; exact ⟨a, List.mem_cons_self _ _, hm, h4.trans he⟩
      · right; exact ⟨n, List.mem_cons_of_mem _ hn, hm, he⟩
    · rcases h5 with h5 | ⟨n, hn, hm, he⟩
      · rcases hs5 with hs5 | ⟨hm, he⟩
        · left; exact h5.trans hs5
        · right; exact ⟨a, List.mem_cons_self _ _, hm, h5.trans he⟩
      · right; exact ⟨n, List.mem_cons_of_mem _ hn, hm, he⟩

theorem mem_notes (n : Nat) : n ∈ List.range' 1 127 ↔ 1 ≤ n ∧ n ≤ 127 := by
  rw [List.mem_range'_1]; omega

/-- What the re-derivation loop computes for one region. -/
theorem rederive_spec (nr : Nat → Option Nat) (idx : Nat) :
    (∀ n, 1 ≤ n → n ≤ 127 → nr n = some idx →
      (rederive nr idx).1 ≤ (n : Int) ∧ (n : Int) ≤ (rederive nr idx).2) ∧
    ((rederive nr idx).1 = 128 ∨
      ∃ n, 1 ≤ n ∧ n ≤ 127 ∧ nr n = some idx ∧ (rederive nr idx).1 = (n : Int)) ∧
    ((rederive nr idx).2 = 0 ∨
      ∃ n, 1 ≤ n ∧ n ≤ 127 ∧ nr n = some idx ∧ (rederive nr idx).2 = (n : Int)) := by
  obtain ⟨-, h2, h3, h4⟩ := rederive_foldl nr idx (List.range' 1 127) (128, 0)
  refine ⟨fun n h1 h127 hm => h2 n ((mem_notes n).2 ⟨h1, h127⟩) hm, ?_, ?_⟩
  · rcases h3 with h | ⟨n, hn, hm, he⟩
    · left; exact h
    · right; exact ⟨n, ((mem_notes n).1 hn).1, ((mem_notes n).1 hn).2, hm, he⟩
  · rcases h4 with h | ⟨n, hn, hm, he⟩
    · left; exact h
    · right; exact ⟨n, ((mem_notes n).1 hn).1, ((mem_notes n).1 hn).2, hm, he⟩

theorem cleanup_regions_get (regions : List Region) (i : Nat) (r : Region)
    (h : (cleanup_regions regions)[i]? = some r) :
    r.lovel = (rederive (note_region regions) i).1 ∧
    r.hivel = (rederive (note_region regions) i).2 := by
  unfold cleanup_regions at h
  rw [rewrite_regions_get] at h
  cases hr : regions[i]? with
  | none => simp [hr] at h
  | some r0 =>
    simp [hr] at h
    subst h
    simp

theorem note_region_bounds (regions : List Region) (v i : Nat)
    (h : note_region regions v = some i) : 1 ≤ v ∧ v ≤ 127 := by
  unfold note_region at h
  by_contra hc
  rw [if_neg hc] at h
  exact Option.noConfusion h

/-- C1 (amended): after `cleanup_regions` every region that was assigned at
least one velocity has `1 ≤ lovel ≤ hivel ≤ 127`, and a region that was assigned
no velocity carries the empty range `lovel = 128`, `hivel = 0`. -/
theorem cleanup_regions_range (regions : List Region) (i : Nat) (r : Region)
    (h : (cleanup_regions regions)[i]? = some r) :
    ((∃ v, note_region regions v = some i) →
      1 ≤ r.lovel ∧ r.lovel ≤ r.hivel ∧ r.hivel ≤ 127) ∧
    ((¬ ∃ v, note_region regions v = some i) → r.lovel = 128 ∧ r.hivel = 0) := by
  obtain ⟨hlo, hhi⟩ := cleanup_regions_get regions i r h
  obtain ⟨h1, h2, h3⟩ := rederive_spec (note_region regions) i
  rw [← hlo, ← hhi] at h1
  rw [← hlo] at h2
  rw [← hhi] at h3
  constructor
  · rintro ⟨v, hv⟩
    obtain ⟨hv1, hv127⟩ := note_region_bounds regions v i hv
    obtain ⟨ha, hb⟩ := h1 v hv1 hv127 hv
    rcases h2 with h2 | ⟨a, ha1, ha127, -, hae⟩
    · omega
    · rcases h3 with h3 | ⟨b, hb1, hb127, -, hbe⟩
      · omega
      · omega
  · intro hne
    rcases h2 with h2 | ⟨a, -, -, ham, -⟩
    · rcases h3 with h3 | ⟨b, -, -, hbm, -⟩
      · exact ⟨h2, h3⟩
      · exact absurd ⟨b, hbm⟩ hne
    · exact absurd ⟨a, ham⟩ hne

set_option maxRecDepth 100000 in
/-- C1 (counterexample): two layers with the same range `[0, 127]`; the second
one is shadowed by the first and leaves `cleanup_regions` with `lovel = 128 > hivel = 0`. -/
theorem cleanup_regions_lovel_le_hivel_fails :
    cleanup_regions [⟨"a", 0, 127⟩, ⟨"b", 0, 127⟩] = [⟨"a", 1, 127⟩, ⟨"b", 128, 0⟩] ∧
    ¬ ∀ r ∈ cleanup_regions [⟨"a", 0, 127⟩, ⟨"b", 0, 127⟩], r.lovel ≤ r.hivel := by
  refine ⟨by decide, fun h => ?_⟩
  exact absurd (h ⟨"b", 128, 0⟩ (by decide)) (by decide)

set_option maxRecDepth 100000 in
/-- C1 (witness): the layers `[0, 40]` and `[30, 127]`; the second region leaves
with `[41, 127]`. -/
theorem cleanup_regions_range_witness :
    (cleanup_regions [⟨"a", 0, 40⟩, ⟨"b", 30, 127⟩])[1]? = some ⟨"b", 41, 127⟩ ∧
    (((∃ v, note_region [⟨"a", 0, 40⟩, ⟨"b", 30, 127⟩] v = some 1) →
      (1 : Int) ≤ 41 ∧ (41 : Int) ≤ 127 ∧ (127 : Int) ≤ 127) ∧
    ((¬ ∃ v, note_region [⟨"a", 0, 40⟩, ⟨"b", 30, 127⟩] v = some 1) →
      (41 : Int) = 128 ∧ (127 : Int) = 0)) :=
  ⟨by decide, cleanup_regions_range [⟨"a", 0, 40⟩, ⟨"b", 30, 127⟩] 1 ⟨"b", 41, 127⟩ (by decide)⟩

set_option maxRecDepth 100000 in
/-- C2 (failing input): a kit whose only layer has `<min>3</min>` gives the
region `lovel = 381, hivel = 127`; no velocity lies in its range and every
velocity is at distance `≥ 254 > best_dist = 128` from its `lovel`, so every slot
of `note_region` stays `nullptr` and the region leaves with `lovel = 128, hivel = 0`. -/
theorem note_region_unassigned :
    (∀ v : Nat, note_region [⟨"kick.wav", 381, 127⟩] v = none) ∧
    cleanup_regions [⟨"kick.wav", 381, 127⟩] = [⟨"kick.wav", 128, 0⟩] := by
  have h : ∀ v < 128, note_region [⟨"kick.wav", 381, 127⟩] v = none := by decide
  refine ⟨fun v => ?_, by decide⟩
  by_cases hv : v < 128
  · exact h v hv
  · unfold note_region
    rw [if_neg (by omega)]

set_option maxRecDepth 100000 in
/-- C3 (counterexample): for the layers `[50, 60]` and `[1, 100]` the first
region is assigned 50..60 and 101..127 and leaves with the range `[50, 127]`,
which contains velocity 70 although 70 is assigned to the second region. -/
theorem cleanup_regions_exact_cover_fails :
    (cleanup_regions [⟨"a", 50, 60⟩, ⟨"b", 1, 100⟩])[0]? = some ⟨"a", 50, 127⟩ ∧
    note_region [⟨"a", 50, 60⟩, ⟨"b", 1, 100⟩] 70 = some 1 ∧
    ¬ (((50 : Int) ≤ 70 ∧ (70 : Int) ≤ 127) ↔
        note_region [⟨"a", 50, 60⟩, ⟨"b", 1, 100⟩] 70 = some 0) := by
  refine ⟨by decide, by decide, fun h => ?_⟩
  exact absurd (h.1 (by decide)) (by decide)

/-- C3 (amended): after `cleanup_regions` the range `[lovel, hivel]` of a region
is the smallest interval containing its assigned velocities: every velocity
assigned to the region lies in the range, and when a velocity 1..127 lies in the
range then `lovel` and `hivel` are themselves velocities assigned to the region.
When the assigned velocities of the region are contiguous, a velocity 1..127 lies
in the range if and only if it is assigned to the region. -/
theorem cleanup_regions_hull (regions : List Region) (i : Nat) (r : Region)
    (h : (cleanup_regions regions)[i]? = some r) :
    (∀ v : Nat, note_region regions v = some i → r.lovel ≤ (v : Int) ∧ (v : Int) ≤ r.hivel) ∧
    (∀ v : Nat, 1 ≤ v → v ≤ 127 → r.lovel ≤ (v : Int) → (v : Int) ≤ r.hivel →
      ∃ a b : Nat, note_region regions a = some i ∧ note_region regions b = some i ∧
        r.lovel = (a : Int) ∧ r.hivel = (b : Int)) ∧
    ((∀ a b v : Nat, note_region regions a = some i → note_region regions b = some i →
        a ≤ v → v ≤ b → note_region regions v = some i) →
      ∀ v : Nat, 1 ≤ v → v ≤ 127 →
        ((r.lovel ≤ (v : Int) ∧ (v : Int) ≤ r.hivel) ↔ note_region regions v = some i)) := by
  obtain ⟨hlo, hhi⟩ := cleanup_regions_get regions i r h
  obtain ⟨h1, h2, h3⟩ := rederive_spec (note_region regions) i
  rw [← hlo, ← hhi] at h1
  rw [← hlo] at h2
  rw [← hhi] at h3
  have hin : ∀ v : Nat, note_region regions v = some i →
      r.lovel ≤ (v : Int) ∧ (v : Int) ≤ r.hivel := by
    intro v hv
    obtain ⟨hv1, hv127⟩ := note_region_bounds regions v i hv
    exact h1 v hv1 hv127 hv
  have hends : ∀ v : Nat, 1 ≤ v → v ≤ 127 → r.lovel ≤ (v : Int) → (v : Int) ≤ r.hivel →
      ∃ a b : Nat, note_region regions a = some i ∧ note_region regions b = some i ∧
        r.lovel = (a : Int) ∧ r.hivel = (b : Int) := by
    intro v hv1 hv127 hl hh
    rcases h2 with h2 | ⟨a, -, -, ham, hae⟩
    · omega
    · rcases h3 with h3 | ⟨b, -, -, hbm, hbe⟩
      · omega
      · exact ⟨a, b, ham, hbm, hae, hbe⟩
  refine ⟨hin, hends, ?_⟩
  intro hconv v hv1 hv127
  constructor
  · rintro ⟨hl, hh⟩
    obtain ⟨a, b, ham, hbm, hae, hbe⟩ := hends v hv1 hv127 hl hh
    exact hconv a b v ham hbm (by omega) (by omega)
  · exact hin v

set_option maxRecDepth 100000 in
/-- C3 (witness): the layers `[50, 60]` and `[1, 100]`; every velocity assigned to
the first region lies in its new range `[50, 127]`. -/
theorem cleanup_regions_hull_witness :
    (cleanup_regions [⟨"a", 50, 60⟩, ⟨"b", 1, 100⟩])[0]? = some ⟨"a", 50, 127⟩ ∧
    (∀ v : Nat, note_region [⟨"a", 50, 60⟩, ⟨"b", 1, 100⟩] v = some 0 →
      (50 : Int) ≤ (v : Int) ∧ (v : Int) ≤ 127) :=
  ⟨by decide,
   (cleanup_regions_hull [⟨"a", 50, 60⟩, ⟨"b", 1, 100⟩] 0 ⟨"a", 50, 127⟩ (by decide)).1⟩

/-! ## Properties of `process_audio` and `process` -/

theorem uint_sub_of_le (a b : Nat) (h : b ≤ a) (ha : a < UINT_SIZE) : uint_sub a b = a - b := by
  unfold uint_sub
  have : a + UINT_SIZE - b = (a - b) + UINT_SIZE := by omega
  rw [this, Nat.add_mod_right]
  exact Nat.mod_eq_of_lt (by omega)

theorem uint_sub_lt (a b : Nat) : uint_sub a b < UINT_SIZE := by
  unfold uint_sub
  exact Nat.mod_lt _ (by unfold UINT_SIZE; omega)

theorem uint_sub_add_mod (a b : Nat) (ha : a < UINT_SIZE) (hb : b < UINT_SIZE) :
    (b + uint_sub a b) % UINT_SIZE = a := by
  unfold uint_sub
  unfold UINT_SIZE at *
  omega

theorem audio_frame_counts_append (a b : List Call) :
    audio_frame_counts (a ++ b) = audio_frame_counts a ++ audio_frame_counts b := by
  induction a with
  | nil => rfl
  | cons c cs ih => cases c <;> simp [audio_frame_counts, ih]

theorem audio_slices_append (a b : List Call) :
    audio_slices (a ++ b) = audio_slices a ++ audio_slices b := by
  induction a with
  | nil => rfl
  | cons c cs ih => cases c <;> simp [audio_slices, ih]

theorem rendered_frames_append (a b : List Call) :
    rendered_frames (a ++ b) = rendered_frames a ++ rendered_frames b := by
  induction a with
  | nil => rfl
  | cons c cs ih => cases c <;> simp [rendered_frames, ih]

theorem dispatched_append (a b : List Call) :
    dispatched (a ++ b) = dispatched a ++ dispatched b := by
  induction a with
  | nil => rfl
  | cons c cs ih => cases c <;> simp [dispatched, ih]

theorem handler_calls_append (a b : List Call) :
    handler_calls (a ++ b) = handler_calls a ++ handler_calls b := by
  induction a with
  | nil => rfl
  | cons c cs ih => cases c <;> simp [handler_calls, ih]

theorem only_voice_calls_nil : only_voice_calls [] := by
  intro c hc; simp at hc

theorem only_voice_calls_cons (i s t : Nat) (tr : List Call) (h : only_voice_calls tr) :
    only_voice_calls (Call.voice_process i s t :: tr) := by
  intro c hc
  rcases List.mem_cons.mp hc with rfl | hc
  · exact ⟨i, s, t, rfl⟩
  · exact h c hc

theorem only_voice_calls_append (a b : List Call) (ha : only_voice_calls a)
    (hb : only_voice_calls b) : only_voice_calls (a ++ b) := by
  intro c hc
  rcases List.mem_append.mp hc with hc | hc
  · exact ha c hc
  · exact hb c hc

theorem only_voice_calls_reads (tr : List Call) (h : only_voice_calls tr) :
    audio_frame_counts tr = [] ∧ audio_slices tr = [] ∧ rendered_frames tr = [] ∧
    dispatched tr = [] ∧ handler_calls tr = [] := by
  induction tr with
  | nil => simp [audio_frame_counts, audio_slices, rendered_frames, dispatched, handler_calls]
  | cons c cs ih =>
    obtain ⟨i, s, t, rfl⟩ := h c (List.mem_cons_self _ _)
    have ih2 := ih (fun c hc => h c (List.mem_cons_of_mem _ hc))
    simp [audio_frame_counts, audio_slices, rendered_frames, dispatched, handler_calls, ih2]

theorem dispatched_dispatch_call (e : Event) (tr : List Call) :
    dispatched (dispatch_call e :: tr) = dispatch_call e :: dispatched tr := by
  unfold dispatch_call
  cases e.type <;> simp [dispatched]

theorem reads_dispatch_call (e : Event) (tr : List Call) :
    audio_frame_counts (dispatch_call e :: tr) = audio_frame_counts tr ∧
    audio_slices (dispatch_call e :: tr) = audio_slices tr ∧
    rendered_frames (dispatch_call e :: tr) = rendered_frames tr ∧
    processed_voices (dispatch_call e :: tr) = processed_voices tr := by
  unfold dispatch_call
  cases e.type <;> simp [audio_frame_counts, audio_slices, rendered_frames, processed_voices]

section
variable {α χ β : Type}

theorem process_voices_cons_active (env : Env α χ β) (c : χ) (g start todo : Nat)
    (v : Voice α) (vs : List (Voice α)) (idx : Nat) (out : Outputs β)
    (h : v.state_ ≠ Voice.State.IDLE) :
    process_voices env c g start todo (v :: vs) idx out =
      ((env.voice_process c g v out start todo).1 ::
        (process_voices env c g start todo vs (idx + 1)
          (env.voice_process c g v out start todo).2).1,
       (process_voices env c g start todo vs (idx + 1)
          (env.voice_process c g v out start todo).2).2.1,
       Call.voice_process idx start todo ::
        (process_voices env c g start todo vs (idx + 1)
          (env.voice_process c g v out start todo).2).2.2) := by
  rw [process_voices, if_pos h]

theorem process_voices_cons_idle (env : Env α χ β) (c : χ) (g start todo : Nat)
    (v : Voice α) (vs : List (Voice α)) (idx : Nat) (out : Outputs β)
    (h : v.state_ = Voice.State.IDLE) :
    process_voices env c g start todo (v :: vs) idx out =
      (v :: (process_voices env c g start todo vs (idx + 1) out).1,
       (process_voices env c g start todo vs (idx + 1) out).2.1,
       (process_voices env c g start todo vs (idx + 1) out).2.2) := by
  rw [process_voices, if_neg (by simpa using h)]

theorem process_voices_calls (env : Env α χ β) (c : χ) (g start todo : Nat)
    (vs : List (Voice α)) (idx : Nat) (out : Outputs β) :
    (process_voices env c g start todo vs idx out).2.2 =
      ((vs.enumFrom idx).filter (fun p => decide (p.2.state_ ≠ Voice.State.IDLE))).map
        (fun p => Call.voice_process p.1 start todo) := by
  induction vs generalizing idx out with
  | nil => simp [process_voices]
  | cons v vs ih =>
    by_cases hv : v.state_ = Voice.State.IDLE
    · rw [process_voices_cons_idle env c g start todo v vs idx out hv, List.enumFrom_cons,
        List.filter_cons_of_neg (by simpa using hv)]
      exact ih _ _
    · rw [process_voices_cons_active env c g start todo v vs idx out hv, List.enumFrom_cons,
        List.filter_cons_of_pos (by simpa using hv), List.map_cons]
      simp only
      rw [ih]

theorem process_voices_only (env : Env α χ β) (c : χ) (g start todo : Nat)
    (vs : List (Voice α)) (idx : Nat) (out : Outputs β) :
    only_voice_calls (process_voices env c g start todo vs idx out).2.2 := by
  rw [process_voices_calls]
  intro x hx
  obtain ⟨p, -, rfl⟩ := List.mem_map.mp hx
  exact ⟨p.1, start, todo, rfl⟩

theorem process_voices_all_idle (env : Env α χ β) (c : χ) (g start todo : Nat)
    (vs : List (Voice α)) (idx : Nat) (out : Outputs β)
    (h : ∀ v ∈ vs, v.state_ = Voice.State.IDLE) :
    process_voices env c g start todo vs idx out = (vs, out, []) := by
  induction vs generalizing idx with
  | nil => rfl
  | cons w ws ih =>
    rw [process_voices_cons_idle env c g start todo w ws idx out (h w (List.mem_cons_self _ _)),
      ih (idx + 1) (fun v hv => h v (List.mem_cons_of_mem _ hv))]

theorem process_audio_loop_done (env : Env α χ β) (c : χ) (g n_frames offset fuel i : Nat)
    (vs : List (Voice α)) (out : Outputs β) (h : ¬ i < n_frames) :
    process_audio_loop env c g n_frames offset fuel i vs out = some (vs, out, []) := by
  cases fuel <;> simp [process_audio_loop, h]

theorem process_audio_loop_step (env : Env α χ β) (c : χ) (g n_frames offset fuel i : Nat)
    (vs : List (Voice α)) (out : Outputs β) (h : i < n_frames) :
    process_audio_loop env c g n_frames offset (fuel + 1) i vs out =
      match process_audio_loop env c g n_frames offset fuel
          (i + min (n_frames - i) env.MAX_BLOCK_SIZE)
          (process_voices env c g (offset + i) (min (n_frames - i) env.MAX_BLOCK_SIZE) vs 0 out).1
          (process_voices env c g (offset + i) (min (n_frames - i) env.MAX_BLOCK_SIZE) vs 0 out).2.1
        with
      | none => none
      | some r2 => some (r2.1, r2.2.1,
          (process_voices env c g (offset + i)
            (min (n_frames - i) env.MAX_BLOCK_SIZE) vs 0 out).2.2 ++ r2.2.2) := by
  rw [process_audio_loop, if_pos h]

/-- The loop of `process_audio` ends when `MAX_BLOCK_SIZE ≥ 1`: `n_frames - i`
iterations suffice. -/
theorem process_audio_loop_returns (env : Env α χ β) (hmax : 1 ≤ env.MAX_BLOCK_SIZE)
    (c : χ) (g n_frames offset fuel i : Nat) (vs : List (Voice α)) (out : Outputs β)
    (hfuel : n_frames - i ≤ fuel) :
    ∃ r, process_audio_loop env c g n_frames offset fuel i vs out = some r := by
  induction fuel generalizing i vs out with
  | zero =>
    exact ⟨_, process_audio_loop_done env c g n_frames offset 0 i vs out (by omega)⟩
  | succ fuel ih =>
    by_cases h : i < n_frames
    · rw [process_audio_loop_step env c g n_frames offset fuel i vs out h]
      have hmin : 1 ≤ min (n_frames - i) env.MAX_BLOCK_SIZE := by
        rw [Nat.le_min]; exact ⟨by omega, hmax⟩
      obtain ⟨r2, hr2⟩ := ih (i + min (n_frames - i) env.MAX_BLOCK_SIZE)
        (process_voices env c g (offset + i) (min (n_frames - i) env.MAX_BLOCK_SIZE) vs 0 out).1
        (process_voices env c g (offset + i) (min (n_frames - i) env.MAX_BLOCK_SIZE) vs 0 out).2.1
        (by omega)
      rw [hr2]
      exact ⟨_, rfl⟩
    · exact ⟨_, process_audio_loop_done env c g n_frames offset _ i vs out h⟩

theorem process_audio_loop_only (env : Env α χ β) (c : χ) (g n_frames offset fuel i : Nat)
    (vs : List (Voice α)) (out : Outputs β) (r : List (Voice α) × Outputs β × List Call)
    (hr : process_audio_loop env c g n_frames offset fuel i vs out = some r) :
    only_voice_calls r.2.2 := by
  induction fuel generalizing i vs out r with
  | zero =>
    by_cases h : i < n_frames
    · simp [process_audio_loop, h] at hr
    · rw [process_audio_loop_done env c g n_frames offset 0 i vs out h] at hr
      cases hr
      exact only_voice_calls_nil
  | succ fuel ih =>
    by_cases h : i < n_frames
    · rw [process_audio_loop_step env c g n_frames offset fuel i vs out h] at hr
      split at hr
      · exact Option.noConfusion hr
      · rename_i r2 hr2
        cases hr
        exact only_voice_calls_append _ _ (process_voices_only _ _ _ _ _ _ _ _) (ih _ _ _ _ hr2)
    · rw [process_audio_loop_done env c g n_frames offset _ i vs out h] at hr
      cases hr
      exact only_voice_calls_nil

theorem process_audio_loop_all_idle (env : Env α χ β) (c : χ) (g n_frames offset fuel i : Nat)
    (vs : List (Voice α)) (out : Outputs β) (r : List (Voice α) × Outputs β × List Call)
    (hr : process_audio_loop env c g n_frames offset fuel i vs out = some r)
    (hidle : ∀ v ∈ vs, v.state_ = Voice.State.IDLE) :
    r = (vs, out, []) := by
  induction fuel generalizing i r with
  | zero =>
    by_cases h : i < n_frames
    · simp [process_audio_loop, h] at hr
    · rw [process_audio_loop_done env c g n_frames offset 0 i vs out h] at hr
      cases hr; rfl
  | succ fuel ih =>
    by_cases h : i < n_frames
    · rw [process_audio_loop_step env c g n_frames offset fuel i vs out h,
        process_voices_all_idle env c g _ _ vs 0 out hidle] at hr
      split at hr
      · exact Option.noConfusion hr
      · rename_i r2 hr2
        cases hr
        have := ih _ _ hr2
        subst this
        rfl
    · rw [process_audio_loop_done env c g n_frames offset _ i vs out h] at hr
      cases hr; rfl

/-- What a returning `process_audio` call leaves behind. -/
theorem process_audio_result (env : Env α χ β) (s : Synth α χ) (out : Outputs β)
    (n_frames offset : Nat) (r : Synth α χ × Outputs β × List Call)
    (hr : process_audio env s out n_frames offset = some r) :
    r.1.global_frame_count = s.global_frame_count + n_frames ∧
    r.1.events = s.events ∧ r.1.rest = s.rest ∧
    ∃ vt, r.2.2 = Call.process_audio n_frames offset :: vt ∧ only_voice_calls vt ∧
      process_audio_loop env s.rest s.global_frame_count n_frames offset n_frames 0
        s.voices_ out = some (r.1.voices_, r.2.1, vt) := by
  unfold process_audio at hr
  split at hr
  · exact Option.noConfusion hr
  · rename_i r0 hr0
    cases hr
    exact ⟨rfl, rfl, rfl, r0.2.2, rfl, process_audio_loop_only _ _ _ _ _ _ _ _ _ _ hr0, hr0⟩

/-- A `process_audio` call returns when `MAX_BLOCK_SIZE ≥ 1`. -/
theorem process_audio_returns (env : Env α χ β) (hmax : 1 ≤ env.MAX_BLOCK_SIZE)
    (s : Synth α χ) (out : Outputs β) (n_frames offset : Nat) :
    ∃ r, process_audio env s out n_frames offset = some r := by
  obtain ⟨r0, hr0⟩ := process_audio_loop_returns env hmax s.rest s.global_frame_count
    n_frames offset n_frames 0 s.voices_ out (by omega)
  unfold process_audio
  rw [hr0]
  exact ⟨_, rfl⟩

theorem dispatch_frame (env : Env α χ β) (s : Synth α χ) (e : Event) :
    (dispatch env s e).events = s.events ∧
    (dispatch env s e).global_frame_count = s.global_frame_count := by
  unfold dispatch
  cases e.type <;> exact ⟨rfl, rfl⟩

theorem process_events_cons_inv (env : Env α χ β) (n_frames : Nat) (e : Event)
    (es : List Event) (offset : Nat) (s : Synth α χ) (out : Outputs β)
    (r : Synth α χ × Outputs β × Nat × List Call)
    (hr : process_events env n_frames (e :: es) offset s out = some r) :
    ∃ r1 r2,
      process_audio env s out (uint_sub (min e.time_frames n_frames) offset) offset = some r1 ∧
      process_events env n_frames es (min e.time_frames n_frames) (dispatch env r1.1 e) r1.2.1
        = some r2 ∧
      r = (r2.1, r2.2.1, r2.2.2.1, r1.2.2 ++ dispatch_call e :: r2.2.2.2) := by
  rw [process_events] at hr
  split at hr
  · exact Option.noConfusion hr
  · rename_i r1 hr1
    split at hr
    · exact Option.noConfusion hr
    · rename_i r2 hr2
      cases hr
      exact ⟨r1, r2, hr1, hr2, rfl⟩

/-- The event loop of `process` ends when `MAX_BLOCK_SIZE ≥ 1`. -/
theorem process_events_returns (env : Env α χ β) (hmax : 1 ≤ env.MAX_BLOCK_SIZE)
    (n_frames : Nat) (es : List Event) (offset : Nat) (s : Synth α χ) (out : Outputs β) :
    ∃ r, process_events env n_frames es offset s out = some r := by
  induction es generalizing offset s out with
  | nil => exact ⟨_, rfl⟩
  | cons e es ih =>
    obtain ⟨r1, hr1⟩ := process_audio_returns env hmax s out
      (uint_sub (min e.time_frames n_frames) offset) offset
    obtain ⟨r2, hr2⟩ := ih (min e.time_frames n_frames) (dispatch env r1.1 e) r1.2.1
    rw [process_events]
    simp only [hr1, hr2]
    exact ⟨_, rfl⟩

/-- Facts about the event loop that hold for every queue. -/
theorem process_events_general (env : Env α χ β) (n_frames : Nat) (es : List Event)
    (offset : Nat) (s : Synth α χ) (out : Outputs β)
    (r : Synth α χ × Outputs β × Nat × List Call)
    (hr : process_events env n_frames es offset s out = some r)
    (hn : n_frames < UINT_SIZE) (hoff : offset < UINT_SIZE) :
    r.1.events = s.events ∧
    dispatched r.2.2.2 = es.map dispatch_call ∧
    r.1.global_frame_count = s.global_frame_count + (audio_frame_counts r.2.2.2).sum ∧
    r.2.2.1 < UINT_SIZE ∧
    (offset + (audio_frame_counts r.2.2.2).sum) % UINT_SIZE = r.2.2.1 := by
  induction es generalizing offset s out r with
  | nil =>
    rw [process_events] at hr
    cases hr
    simp [dispatched, audio_frame_counts, Nat.mod_eq_of_lt hoff, hoff]
  | cons e es ih =>
    obtain ⟨r1, r2, hr1, hr2, rfl⟩ := process_events_cons_inv env n_frames e es offset s out r hr
    have hnew : min e.time_frames n_frames < UINT_SIZE := lt_of_le_of_lt (Nat.min_le_right _ _) hn
    obtain ⟨hg1, he1, -, vt, htr1, hvt, -⟩ := process_audio_result env s out _ _ r1 hr1
    obtain ⟨i1, i2, i3, i4, i5⟩ := ih _ _ _ r2 hr2 hnew
    obtain ⟨hvt1, -, -, hvt4, -⟩ := only_voice_calls_reads vt hvt
    obtain ⟨hd1, -, -, -⟩ := reads_dispatch_call e r2.2.2.2
    have hsum : audio_frame_counts (r1.2.2 ++ dispatch_call e :: r2.2.2.2) =
        uint_sub (min e.time_frames n_frames) offset :: audio_frame_counts r2.2.2.2 := by
      rw [audio_frame_counts_append, hd1, htr1]
      simp [audio_frame_counts, hvt1]
    refine ⟨?_, ?_, ?_, i4, ?_⟩
    · show r2.1.events = s.events
      rw [i1, (dispatch_frame env r1.1 e).1, he1]
    · show dispatched (r1.2.2 ++ dispatch_call e :: r2.2.2.2) = _
      rw [dispatched_append, dispatched_dispatch_call, htr1, i2]
      simp [dispatched, hvt4]
    · show r2.1.global_frame_count = _
      rw [hsum, i3, (dispatch_frame env r1.1 e).2, hg1, List.sum_cons]
      omega
    · show (offset + (audio_frame_counts (r1.2.2 ++ dispatch_call e :: r2.2.2.2)).sum) % _
        = r2.2.2.1
      rw [hsum, List.sum_cons]
      have h := uint_sub_add_mod (min e.time_frames n_frames) offset hnew hoff
      generalize uint_sub (min e.time_frames n_frames) offset = d at h
      generalize min e.time_frames n_frames = m at h i5 hnew
      unfold UINT_SIZE at *
      omega

theorem range_glue (a b c : Nat) (hab : a ≤ b) (hbc : b ≤ c) :
    List.range' a (b - a) ++ List.range' b (c - b) = List.range' a (c - a) := by
  have h1 : b = a + (b - a) := by omega
  have h2 : c - a = (c - b) + (b - a) := by omega
  rw [h2, ← List.range'_append_1, ← h1]

/-- Facts about the event loop for a queue with non-decreasing `time_frames`,
entered at an `offset` not beyond the first event. -/
theorem process_events_sorted (env : Env α χ β) (n_frames : Nat) (es : List Event)
    (offset : Nat) (s : Synth α χ) (out : Outputs β)
    (r : Synth α χ × Outputs β × Nat × List Call)
    (hr : process_events env n_frames es offset s out = some r)
    (hn : n_frames < UINT_SIZE) (hoff : offset ≤ n_frames)
    (hlo : ∀ e ∈ es, offset ≤ e.time_frames) (hs : events_sorted es) :
    offset ≤ r.2.2.1 ∧ r.2.2.1 ≤ n_frames ∧
    rendered_frames r.2.2.2 = List.range' offset (r.2.2.1 - offset) ∧
    (audio_frame_counts r.2.2.2).sum = r.2.2.1 - offset ∧
    (∀ p ∈ audio_slices r.2.2.2, p.1 + p.2 ≤ n_frames) ∧
    (∀ rest, consecutive_from r.2.2.1 rest →
      consecutive_from offset (audio_slices r.2.2.2 ++ rest)) ∧
    (∀ k e, es[k]? = some e → ∃ pre post,
      r.2.2.2 = pre ++ dispatch_call e :: post ∧
      (dispatched pre).length = k ∧
      rendered_frames pre = List.range' offset (min e.time_frames n_frames - offset) ∧
      offset ≤ min e.time_frames n_frames ∧ min e.time_frames n_frames ≤ r.2.2.1 ∧
      ∀ f ∈ rendered_frames post, min e.time_frames n_frames ≤ f) := by
  induction es generalizing offset s out r with
  | nil =>
    rw [process_events] at hr
    cases hr
    refine ⟨le_refl _, hoff, ?_, ?_, ?_, ?_, ?_⟩
    · simp [rendered_frames]
    · simp [audio_frame_counts]
    · intro p hp; simp [audio_slices] at hp
    · intro rest h; simpa [audio_slices] using h
    · intro k e hk; simp at hk
  | cons e es ih =>
    obtain ⟨r1, r2, hr1, hr2, rfl⟩ := process_events_cons_inv env n_frames e es offset s out r hr
    have hoe : offset ≤ e.time_frames := hlo e (List.mem_cons_self _ _)
    have hnew : offset ≤ min e.time_frames n_frames := Nat.le_min.mpr ⟨hoe, hoff⟩
    have hnewn : min e.time_frames n_frames ≤ n_frames := Nat.min_le_right _ _
    have hsub : uint_sub (min e.time_frames n_frames) offset
        = min e.time_frames n_frames - offset :=
      uint_sub_of_le _ _ hnew (lt_of_le_of_lt hnewn hn)
    rw [hsub] at hr1
    obtain ⟨-, -, -, vt, htr1, hvt, -⟩ := process_audio_result env s out _ _ r1 hr1
    obtain ⟨hvt1, hvt2, hvt3, hvt4, -⟩ := only_voice_calls_reads vt hvt
    obtain ⟨hd1, hd2, hd3, -⟩ := reads_dispatch_call e r2.2.2.2
    have hs' : events_sorted es := (List.pairwise_cons.mp hs).2
    have hlo' : ∀ e' ∈ es, min e.time_frames n_frames ≤ e'.time_frames := by
      intro e' he'
      exact le_trans (Nat.min_le_left _ _) ((List.pairwise_cons.mp hs).1 e' he')
    obtain ⟨i1, i2, i3, i4, i5, i6, i7⟩ := ih _ _ _ r2 hr2 hnewn hlo' hs'
    have hfr1 : rendered_frames r1.2.2 =
        List.range' offset (min e.time_frames n_frames - offset) := by
      rw [htr1]; simp [rendered_frames, hvt3]
    have hdp1 : dispatched r1.2.2 = [] := by
      rw [htr1]; simp [dispatched, hvt4]
    have hsl1 : audio_slices r1.2.2 = [(offset, min e.time_frames n_frames - offset)] := by
      rw [htr1]; simp [audio_slices, hvt2]
    have hfc1 : audio_frame_counts r1.2.2 = [min e.time_frames n_frames - offset] := by
      rw [htr1]; simp [audio_frame_counts, hvt1]
    refine ⟨le_trans hnew i1, i2, ?_, ?_, ?_, ?_, ?_⟩
    · show rendered_frames (r1.2.2 ++ dispatch_call e :: r2.2.2.2) =
        List.range' offset (r2.2.2.1 - offset)
      rw [rendered_frames_append, hd3, hfr1, i3]
      exact range_glue _ _ _ hnew i1
    · show (audio_frame_counts (r1.2.2 ++ dispatch_call e :: r2.2.2.2)).sum =
        r2.2.2.1 - offset
      rw [audio_frame_counts_append, hd1, hfc1, List.sum_append, i4]
      simp only [List.sum_cons, List.sum_nil]
      omega
    · intro p hp
      have hp' : p ∈ audio_slices (r1.2.2 ++ dispatch_call e :: r2.2.2.2) := hp
      rw [audio_slices_append, hd2, hsl1] at hp'
      rcases List.mem_append.mp hp' with h | h
      · simp only [List.mem_singleton] at h
        subst h
        show offset + (min e.time_frames n_frames - offset) ≤ n_frames
        omega
      · exact i5 p h
    · intro rest hrest
      show consecutive_from offset (audio_slices (r1.2.2 ++ dispatch_call e :: r2.2.2.2) ++ rest)
      rw [audio_slices_append, hd2, hsl1]
      simp only [List.singleton_append, List.cons_append, List.nil_append, consecutive_from]
      refine ⟨trivial, ?_⟩
      have : offset + (min e.time_frames n_frames - offset) = min e.time_frames n_frames := by
        omega
      rw [this]
      exact i6 rest hrest
    · intro k e' hk
      cases k with
      | zero =>
        simp only [List.getElem?_cons_zero, Option.some.injEq] at hk
        subst hk
        refine ⟨r1.2.2, r2.2.2.2, rfl, by rw [hdp1]; rfl, hfr1, hnew, i1, ?_⟩
        intro f hf
        rw [i3, List.mem_range'_1] at hf
        exact hf.1
      | succ k =>
        simp only [List.getElem?_cons_succ] at hk
        obtain ⟨pre, post, hsplit, hlen, hpre, hle1, hle2, hpost⟩ := i7 k e' hk
        refine ⟨r1.2.2 ++ dispatch_call e :: pre, post, ?_, ?_, ?_, le_trans hnew hle1, hle2,
          hpost⟩
        · show r1.2.2 ++ dispatch_call e :: r2.2.2.2 = _
          rw [hsplit]; simp
        · rw [dispatched_append, dispatched_dispatch_call, hdp1]
          simp [hlen]
        · rw [rendered_frames_append, (reads_dispatch_call e pre).2.2.1, hfr1, hpre]
          exact range_glue _ _ _ hnew hle1

theorem process_events_counts (env : Env α χ β) (n_frames : Nat) (es : List Event)
    (offset : Nat) (s : Synth α χ) (out : Outputs β)
    (r : Synth α χ × Outputs β × Nat × List Call)
    (hr : process_events env n_frames es offset s out = some r) :
    audio_frame_counts r.2.2.2 = slice_counts n_frames es offset ∧
    r.2.2.1 = last_offset n_frames es offset := by
  induction es generalizing offset s out r with
  | nil =>
    rw [process_events] at hr
    cases hr
    exact ⟨rfl, rfl⟩
  | cons e es ih =>
    obtain ⟨r1, r2, hr1, hr2, rfl⟩ := process_events_cons_inv env n_frames e es offset s out r hr
    obtain ⟨-, -, -, vt, htr1, hvt, -⟩ := process_audio_result env s out _ _ r1 hr1
    obtain ⟨hvt1, -, -, -, -⟩ := only_voice_calls_reads vt hvt
    obtain ⟨i1, i2⟩ := ih _ _ _ r2 hr2
    constructor
    · show audio_frame_counts (r1.2.2 ++ dispatch_call e :: r2.2.2.2) = _
      rw [audio_frame_counts_append, (reads_dispatch_call e r2.2.2.2).1, htr1, i1]
      simp [audio_frame_counts, hvt1, slice_counts]
    · show r2.2.2.1 = _
      rw [i2]; rfl

theorem process_inv [Zero β] (env : Env α χ β) (s : Synth α χ) (out : Outputs β)
    (n_frames : Nat) (r : Synth α χ × Outputs β × List Call)
    (hr : process env s out n_frames = some r) :
    ∃ r1 r2,
      process_events env n_frames s.events 0 s
        (zero_float_block n_frames out.1, zero_float_block n_frames out.2) = some r1 ∧
      process_audio env { r1.1 with events := [] } r1.2.1 (uint_sub n_frames r1.2.2.1) r1.2.2.1
        = some r2 ∧
      r = (r2.1, r2.2.1, r1.2.2.2 ++ r2.2.2) := by
  unfold process at hr
  simp only at hr
  split at hr
  · exact Option.noConfusion hr
  · rename_i r1 hr1
    split at hr
    · exact Option.noConfusion hr
    · rename_i r2 hr2
      cases hr
      exact ⟨r1, r2, hr1, hr2, rfl⟩

/-- `Synth::process` returns when `MAX_BLOCK_SIZE ≥ 1`. -/
theorem process_returns [Zero β] (env : Env α χ β) (hmax : 1 ≤ env.MAX_BLOCK_SIZE)
    (s : Synth α χ) (out : Outputs β) (n_frames : Nat) :
    ∃ r, process env s out n_frames = some r := by
  obtain ⟨r1, hr1⟩ := process_events_returns env hmax n_frames s.events 0 s
    (zero_float_block n_frames out.1, zero_float_block n_frames out.2)
  obtain ⟨r2, hr2⟩ := process_audio_returns env hmax { r1.1 with events := [] } r1.2.1
    (uint_sub n_frames r1.2.2.1) r1.2.2.1
  unfold process
  simp only [hr1, hr2]
  exact ⟨_, rfl⟩

/-- What a returning `process` call has done, for every event queue. -/
theorem process_general [Zero β] (env : Env α χ β) (s : Synth α χ) (out : Outputs β)
    (n_frames : Nat) (hn : n_frames < UINT_SIZE) (r : Synth α χ × Outputs β × List Call)
    (hr : process env s out n_frames = some r) :
    r.1.events = [] ∧
    dispatched r.2.2 = s.events.map dispatch_call ∧
    r.1.global_frame_count = s.global_frame_count + (audio_frame_counts r.2.2).sum ∧
    (audio_frame_counts r.2.2).sum % UINT_SIZE = n_frames ∧
    audio_frame_counts r.2.2 = slice_counts n_frames s.events 0 ++
      [uint_sub n_frames (last_offset n_frames s.events 0)] := by
  obtain ⟨r1, r2, hr1, hr2, rfl⟩ := process_inv env s out n_frames r hr
  obtain ⟨g1, g2, g3, g4, g5⟩ := process_events_general env n_frames s.events 0 s _ r1 hr1 hn
    (by unfold UINT_SIZE; omega)
  obtain ⟨c1, c2⟩ := process_events_counts env n_frames s.events 0 s _ r1 hr1
  obtain ⟨a1, a2, -, vt, htr2, hvt, -⟩ := process_audio_result env _ _ _ _ r2 hr2
  obtain ⟨hvt1, -, -, hvt4, -⟩ := only_voice_calls_reads vt hvt
  have hfc : audio_frame_counts r2.2.2 = [uint_sub n_frames r1.2.2.1] := by
    rw [htr2]; simp [audio_frame_counts, hvt1]
  have hdp : dispatched r2.2.2 = [] := by
    rw [htr2]; simp [dispatched, hvt4]
  refine ⟨a2, ?_, ?_, ?_, ?_⟩
  · show dispatched (r1.2.2.2 ++ r2.2.2) = _
    rw [dispatched_append, hdp, g2, List.append_nil]
  · show r2.1.global_frame_count = _ + (audio_frame_counts (r1.2.2.2 ++ r2.2.2)).sum
    rw [audio_frame_counts_append, List.sum_append, hfc, a1]
    show r1.1.global_frame_count + _ = _
    rw [g3]
    simp only [List.sum_cons, List.sum_nil]
    omega
  · show (audio_frame_counts (r1.2.2.2 ++ r2.2.2)).sum % UINT_SIZE = n_frames
    rw [audio_frame_counts_append, List.sum_append, hfc]
    simp only [List.sum_cons, List.sum_nil, Nat.add_zero]
    have h := uint_sub_add_mod n_frames r1.2.2.1 hn g4
    rw [Nat.zero_add] at g5
    generalize uint_sub n_frames r1.2.2.1 = d at h
    generalize (audio_frame_counts r1.2.2.2).sum = t at g5
    generalize r1.2.2.1 = o at g4 g5 h
    unfold UINT_SIZE at *
    omega
  · show audio_frame_counts (r1.2.2.2 ++ r2.2.2) = _
    rw [audio_frame_counts_append, hfc, c1, c2]

/-- What a returning `process` call has done for a queue with non-decreasing
`time_frames`. -/
theorem process_sorted [Zero β] (env : Env α χ β) (s : Synth α χ) (out : Outputs β)
    (n_frames : Nat) (hn : n_frames < UINT_SIZE) (hs : events_sorted s.events)
    (r : Synth α χ × Outputs β × List Call)
    (hr : process env s out n_frames = some r) :
    (audio_frame_counts r.2.2).sum = n_frames ∧
    rendered_frames r.2.2 = List.range n_frames ∧
    consecutive_from 0 (audio_slices r.2.2) ∧
    (∀ p ∈ audio_slices r.2.2, p.1 + p.2 ≤ n_frames) ∧
    (∀ k e, s.events[k]? = some e → ∃ pre post,
      r.2.2 = pre ++ dispatch_call e :: post ∧
      (dispatched pre).length = k ∧
      rendered_frames pre = List.range (min e.time_frames n_frames) ∧
      ∀ f ∈ rendered_frames post, min e.time_frames n_frames ≤ f) := by
  obtain ⟨r1, r2, hr1, hr2, rfl⟩ := process_inv env s out n_frames r hr
  obtain ⟨-, q2, q3, q4, q5, q6, q7⟩ := process_events_sorted env n_frames s.events 0 s _ r1 hr1
    hn (Nat.zero_le _) (fun e _ => Nat.zero_le _) hs
  have hsub : uint_sub n_frames r1.2.2.1 = n_frames - r1.2.2.1 := uint_sub_of_le _ _ q2 hn
  rw [hsub] at hr2
  obtain ⟨-, -, -, vt, htr2, hvt, -⟩ := process_audio_result env _ _ _ _ r2 hr2
  obtain ⟨hvt1, hvt2, hvt3, -, -⟩ := only_voice_calls_reads vt hvt
  have hfc : audio_frame_counts r2.2.2 = [n_frames - r1.2.2.1] := by
    rw [htr2]; simp [audio_frame_counts, hvt1]
  have hsl : audio_slices r2.2.2 = [(r1.2.2.1, n_frames - r1.2.2.1)] := by
    rw [htr2]; simp [audio_slices, hvt2]
  have hfr : rendered_frames r2.2.2 = List.range' r1.2.2.1 (n_frames - r1.2.2.1) := by
    rw [htr2]; simp [rendered_frames, hvt3]
  refine ⟨?_, ?_, ?_, ?_, ?_⟩
  · show (audio_frame_counts (r1.2.2.2 ++ r2.2.2)).sum = n_frames
    rw [audio_frame_counts_append, List.sum_append, hfc, q4]
    simp only [List.sum_cons, List.sum_nil]
    omega
  · show rendered_frames (r1.2.2.2 ++ r2.2.2) = List.range n_frames
    rw [rendered_frames_append, hfr, q3, List.range_eq_range']
    have := range_glue 0 r1.2.2.1 n_frames (Nat.zero_le _) q2
    simpa using this
  · show consecutive_from 0 (audio_slices (r1.2.2.2 ++ r2.2.2))
    rw [audio_slices_append, hsl]
    exact q6 _ ⟨rfl, trivial⟩
  · intro p hp
    have hp' : p ∈ audio_slices (r1.2.2.2 ++ r2.2.2) := hp
    rw [audio_slices_append, hsl] at hp'
    rcases List.mem_append.mp hp' with h | h
    · exact q5 p h
    · simp only [List.mem_singleton] at h
      subst h
      show r1.2.2.1 + (n_frames - r1.2.2.1) ≤ n_frames
      omega
  · intro k e hk
    obtain ⟨pre, post, hsplit, hlen, hpre, -, hle, hpost⟩ := q7 k e hk
    refine ⟨pre, post ++ r2.2.2, ?_, hlen, ?_, ?_⟩
    · show r1.2.2.2 ++ r2.2.2 = _
      rw [hsplit]; simp
    · rw [hpre, List.range_eq_range']; simp
    · intro f hf
      rw [rendered_frames_append] at hf
      rcases List.mem_append.mp hf with h | h
      · exact hpost f h
      · rw [hfr, List.mem_range'_1] at h
        omega

/-- C4 (counterexample): with an event at frame 10 queued before one at frame 5
and `n_frames = 16`, `process` calls `process_audio` with the frame counts
`10 - 0 = 10`, `5 - 10 = 4294967291` (unsigned) and `16 - 5 = 11`, which sum to
`4294967312`, not to 16. -/
theorem process_frame_sum_fails :
    ∃ r, process sample_env unsorted_synth sample_out 16 = some r ∧
      audio_frame_counts r.2.2 = [10, 4294967291, 11] ∧
      (audio_frame_counts r.2.2).sum ≠ 16 := by
  obtain ⟨r, hr⟩ := process_returns sample_env (by decide) unsorted_synth sample_out 16
  have h := (process_general sample_env unsorted_synth sample_out 16 (by decide) r hr).2.2.2.2
  have hc : audio_frame_counts r.2.2 = [10, 4294967291, 11] := by
    rw [h]; decide
  refine ⟨r, hr, hc, ?_⟩
  rw [hc]; decide

/-- C4 (amended): for every event queue whose `time_frames` are non-decreasing
and every `n_frames`, `process` returns and the frame counts of its
`process_audio` calls sum to exactly `n_frames`; for an arbitrary queue the sum is
congruent to `n_frames` modulo `2^32`. -/
theorem process_frame_sum [Zero β] (env : Env α χ β) (s : Synth α χ) (out : Outputs β)
    (n_frames : Nat) (hmax : 1 ≤ env.MAX_BLOCK_SIZE) (hn : n_frames < UINT_SIZE) :
    ∃ r, process env s out n_frames = some r ∧
      (audio_frame_counts r.2.2).sum % UINT_SIZE = n_frames ∧
      (events_sorted s.events → (audio_frame_counts r.2.2).sum = n_frames) := by
  obtain ⟨r, hr⟩ := process_returns env hmax s out n_frames
  exact ⟨r, hr, (process_general env s out n_frames hn r hr).2.2.2.1,
    fun hs => (process_sorted env s out n_frames hn hs r hr).1⟩

/-- C4 (witness): the sample synth, 64 frames. -/
theorem process_frame_sum_witness :
    (1 ≤ sample_env.MAX_BLOCK_SIZE ∧ 64 < UINT_SIZE ∧ events_sorted sample_synth.events) ∧
    ∃ r, process sample_env sample_synth sample_out 64 = some r ∧
      (audio_frame_counts r.2.2).sum % UINT_SIZE = 64 ∧
      (events_sorted sample_synth.events → (audio_frame_counts r.2.2).sum = 64) :=
  ⟨⟨by decide, by decide, by decide⟩,
   process_frame_sum sample_env sample_synth sample_out 64 (by decide) (by decide)⟩

theorem handler_calls_of_dispatched_nil (tr : List Call) (h : dispatched tr = []) :
    handler_calls tr = [] := by
  induction tr with
  | nil => rfl
  | cons c cs ih =>
    cases c <;> simp [dispatched] at h <;> simp [handler_calls, ih h]

/-- C8: when every voice is `IDLE` and the event queue is empty, `process`
returns with both output buffers holding 0 at every index `< n_frames`, whatever
they held before, and with the samples at indices `≥ n_frames` unchanged. -/
theorem process_silence [Zero β] (env : Env α χ β) (s : Synth α χ) (out : Outputs β)
    (n_frames : Nat) (hmax : 1 ≤ env.MAX_BLOCK_SIZE)
    (hidle : ∀ v ∈ s.voices_, v.state_ = Voice.State.IDLE) (hev : s.events = []) :
    ∃ r, process env s out n_frames = some r ∧
      ∀ k, (k < n_frames → r.2.1.1 k = 0 ∧ r.2.1.2 k = 0) ∧
           (n_frames ≤ k → r.2.1.1 k = out.1 k ∧ r.2.1.2 k = out.2 k) := by
  obtain ⟨r, hr⟩ := process_returns env hmax s out n_frames
  refine ⟨r, hr, ?_⟩
  obtain ⟨r1, r2, hr1, hr2, rfl⟩ := process_inv env s out n_frames r hr
  rw [hev, process_events] at hr1
  cases hr1
  obtain ⟨-, -, -, vt, -, -, hloop⟩ := process_audio_result env _ _ _ _ r2 hr2
  have hall := process_audio_loop_all_idle env _ _ _ _ _ _ _ _ _ hloop hidle
  have hout : r2.2.1 = (zero_float_block n_frames out.1, zero_float_block n_frames out.2) :=
    congrArg (fun t => t.2.1) hall
  intro k
  show (k < n_frames → r2.2.1.1 k = 0 ∧ r2.2.1.2 k = 0) ∧
    (n_frames ≤ k → r2.2.1.1 k = out.1 k ∧ r2.2.1.2 k = out.2 k)
  rw [hout]
  constructor
  · intro hk
    simp [zero_float_block, hk]
  · intro hk
    have : ¬ k < n_frames := by omega
    simp [zero_float_block, this]

/-- C8 (witness): the synth at rest, 64 frames over buffers that held 7 and 8. -/
theorem process_silence_witness :
    (1 ≤ sample_env.MAX_BLOCK_SIZE ∧
      (∀ v ∈ silent_synth.voices_, v.state_ = Voice.State.IDLE) ∧ silent_synth.events = []) ∧
    ∃ r, process sample_env silent_synth sample_out 64 = some r ∧
      ∀ k, (k < 64 → r.2.1.1 k = 0 ∧ r.2.1.2 k = 0) ∧
           (64 ≤ k → r.2.1.1 k = sample_out.1 k ∧ r.2.1.2 k = sample_out.2 k) :=
  ⟨⟨by decide, by decide, by decide⟩,
   process_silence sample_env silent_synth sample_out 64 (by decide) (by decide) (by decide)⟩

/-- C9: a `process_audio (outputs, n, offset)` call returns with
`global_frame_count` advanced by exactly `n`, whatever `MAX_BLOCK_SIZE ≥ 1` and
hence the number of sub-blocks is; a `process (outputs, n_frames)` call never
decreases the counter, and for a queue with non-decreasing `time_frames` it
advances the counter by exactly `n_frames`. -/
theorem global_frame_count_advance [Zero β] (env : Env α χ β) (s : Synth α χ)
    (out : Outputs β) (n_frames : Nat) (hmax : 1 ≤ env.MAX_BLOCK_SIZE)
    (hn : n_frames < UINT_SIZE) :
    (∀ n offset, ∃ r, process_audio env s out n offset = some r ∧
      r.1.global_frame_count = s.global_frame_count + n ∧
      s.global_frame_count ≤ r.1.global_frame_count) ∧
    (∃ r, process env s out n_frames = some r ∧
      s.global_frame_count ≤ r.1.global_frame_count ∧
      (events_sorted s.events →
        r.1.global_frame_count = s.global_frame_count + n_frames)) := by
  constructor
  · intro n offset
    obtain ⟨r, hr⟩ := process_audio_returns env hmax s out n offset
    have h := (process_audio_result env s out n offset r hr).1
    exact ⟨r, hr, h, by omega⟩
  · obtain ⟨r, hr⟩ := process_returns env hmax s out n_frames
    have h := (process_general env s out n_frames hn r hr).2.2.1
    refine ⟨r, hr, by omega, ?_⟩
    intro hs
    rw [h, (process_sorted env s out n_frames hn hs r hr).1]

/-- C9 (witness): the sample synth, 64 frames, counter at 100 before the call. -/
theorem global_frame_count_advance_witness :
    (1 ≤ sample_env.MAX_BLOCK_SIZE ∧ 64 < UINT_SIZE ∧ events_sorted sample_synth.events) ∧
    ∃ r, process sample_env sample_synth sample_out 64 = some r ∧
      r.1.global_frame_count = 164 :=
  ⟨⟨by decide, by decide, by decide⟩,
   (global_frame_count_advance sample_env sample_synth sample_out 64 (by decide)
      (by decide)).2.imp (fun _ h => ⟨h.1, h.2.2 (by decide)⟩)⟩

/-- The sample names of the regions, in order, are untouched by `cleanup_regions`. -/
theorem rewrite_regions_samples (nr : Nat → Option Nat) (rs : List Region) (k : Nat) :
    (rewrite_regions nr rs k).map Region.sample = rs.map Region.sample := by
  induction rs generalizing k with
  | nil => rfl
  | cons r rs ih => simp [rewrite_regions, ih]

theorem emit_regions_spec (rs : List Region) (st : ParseState) :
    (emit_regions rs st).region_count = st.region_count + rs.length ∧
    (emit_regions rs st).group = st.group ∧
    (emit_regions rs st).instrument_index = st.instrument_index ∧
    ∃ lines, (emit_regions rs st).out = st.out ++ lines ∧ region_blocks lines = rs.length ∧
      lines = (rs.map (fun r => [Line.region_header, Line.velocities r.lovel r.hivel,
        Line.sample r.sample, Line.blank])).flatten := by
  induction rs generalizing st with
  | nil => exact ⟨rfl, rfl, rfl, [], by simp [emit_regions], rfl, rfl⟩
  | cons r rs ih =>
    obtain ⟨h1, h2, h3, lines, h4, h5, h6⟩ := ih
      { st with
        out := st.out ++ [Line.region_header, Line.velocities r.lovel r.hivel,
          Line.sample r.sample, Line.blank]
        region_count := st.region_count + 1 }
    refine ⟨?_, ?_, ?_, [Line.region_header, Line.velocities r.lovel r.hivel,
          Line.sample r.sample, Line.blank] ++ lines, ?_, ?_, ?_⟩
    · rw [emit_regions, h1]; simp; omega
    · rw [emit_regions, h2]
    · rw [emit_regions, h3]
    · rw [emit_regions, h4]; simp
    · unfold region_blocks at h5 ⊢
      rw [List.count_append, h5]
      simp [List.count_cons]
      omega
    · rw [h6]; simp

theorem cleanup_regions_length (regions : List Region) :
    (cleanup_regions regions).length = regions.length := by
  have h := congrArg List.length (rewrite_regions_samples (note_region regions) regions 0)
  simpa [cleanup_regions] using h

theorem emit_filename_spec (filename : Option String) (st : ParseState) :
    (emit_filename filename st).region_count =
      st.region_count + (if filename.isSome then 1 else 0) ∧
    (emit_filename filename st).group = st.group ∧
    (emit_filename filename st).instrument_index = st.instrument_index ∧
    ∃ lines, (emit_filename filename st).out = st.out ++ lines ∧
      region_blocks lines = (if filename.isSome then 1 else 0) := by
  cases filename with
  | none => exact ⟨rfl, rfl, rfl, [], by simp [emit_filename], rfl⟩
  | some s =>
    refine ⟨rfl, rfl, rfl, [Line.region_header, Line.sample s, Line.blank], rfl, ?_⟩
    simp [region_blocks, List.count_cons]

theorem parse_instrument_spec (instrument : Instrument) (st : ParseState) :
    (parse_instrument instrument st).region_count =
      st.region_count + instrument_regions instrument ∧
    ∃ lines, (parse_instrument instrument st).out = st.out ++ lines ∧
      region_blocks lines = instrument_regions instrument := by
  unfold parse_instrument
  simp only
  generalize hst1 : ({ st with
      out := st.out ++ [Line.comment instrument.name, Line.group_header,
        Line.key (st.instrument_index + 36), Line.loop_mode, Line.amp_velcurve,
        Line.group st.group, Line.off_by st.group, Line.volume instrument.volume,
        Line.blank] } : ParseState) = st1
  have hc1 : st1.region_count = st.region_count := by rw [← hst1]
  have ho1 : st1.out = st.out ++ [Line.comment instrument.name, Line.group_header,
        Line.key (st.instrument_index + 36), Line.loop_mode, Line.amp_velcurve,
        Line.group st.group, Line.off_by st.group, Line.volume instrument.volume,
        Line.blank] := by rw [← hst1]
  obtain ⟨e1, -, -, l2, e4, e5, -⟩ :=
    emit_regions_spec (cleanup_regions (instrument.component_layers ++ instrument.layers)) st1
  obtain ⟨f1, -, -, l3, f4, f5⟩ := emit_filename_spec instrument.filename
    (emit_regions (cleanup_regions (instrument.component_layers ++ instrument.layers)) st1)
  rw [cleanup_regions_length, List.length_append] at e1 e5
  constructor
  · show (emit_filename _ _).region_count = _
    rw [f1, e1, hc1]
    unfold instrument_regions
    omega
  · refine ⟨[Line.comment instrument.name, Line.group_header,
        Line.key (st.instrument_index + 36), Line.loop_mode, Line.amp_velcurve,
        Line.group st.group, Line.off_by st.group, Line.volume instrument.volume,
        Line.blank] ++ l2 ++ l3 ++ [Line.blank], ?_, ?_⟩
    · show (emit_filename _ _).out ++ [Line.blank] = _
      rw [f4, e4, ho1]
      simp
    · unfold region_blocks at *
      rw [List.count_append, List.count_append, List.count_append, e5, f5]
      unfold instrument_regions
      simp [List.count_cons]

theorem parse_instruments_spec (instruments : List Instrument) (st : ParseState) :
    (parse_instruments instruments st).region_count =
      st.region_count + (instruments.map instrument_regions).sum ∧
    ∃ lines, (parse_instruments instruments st).out = st.out ++ lines ∧
      region_blocks lines = (instruments.map instrument_regions).sum := by
  induction instruments generalizing st with
  | nil => exact ⟨rfl, [], by simp [parse_instruments], rfl⟩
  | cons i is ih =>
    obtain ⟨p1, l1, p2, p3⟩ := parse_instrument_spec i st
    obtain ⟨q1, l2, q2, q3⟩ := ih (parse_instrument i st)
    constructor
    · rw [parse_instruments, q1, p1]; simp; omega
    · refine ⟨l1 ++ l2, ?_, ?_⟩
      · rw [parse_instruments, q2, p2]; simp
      · unfold region_blocks at *
        rw [List.count_append, p3, q3]; simp

/-- C11: a document that fails to load makes `parse` return false and leaves `out`
alone; for a document that loads, `parse` appends text whose number of `<region>`
blocks is the number of layers (of both kinds) and `<filename>` children of all
instruments, returns false if and only if that number is zero, and returns true
if and only if at least one `<region>` block was appended. -/
theorem parse_false_iff_no_region (instruments : List Instrument) (out : List Line) :
    parse none out = (false, out) ∧
    ∃ lines, (parse (some instruments) out).2 = out ++ lines ∧
      region_blocks lines = (instruments.map instrument_regions).sum ∧
      ((parse (some instruments) out).1 = false ↔ region_blocks lines = 0) ∧
      ((parse (some instruments) out).1 = true ↔ 1 ≤ region_blocks lines) := by
  refine ⟨rfl, ?_⟩
  obtain ⟨h1, lines, h2, h3⟩ := parse_instruments_spec instruments
    { instrument_index := 0, region_count := 0, group := 1, out := out }
  simp only [Nat.zero_add] at h1
  refine ⟨lines, ?_, h3, ?_, ?_⟩
  · unfold parse
    simp only
    split_ifs <;> exact h2
  · unfold parse
    simp only
    rw [h1, h3]
    split_ifs with h <;> simp [h]
  · unfold parse
    simp only
    rw [h1, h3]
    split_ifs with h <;> simp [h]
    omega

/-! ## Properties of `SampleReader` -/

/-- C12: `restart` overwrites every member: for any two prior readers and the
same play handle, cached sample and upsample factor it gives the same result;
the reader it leaves has position 0, an interpolation window of 24 zeros, and the
loop disabled (`loop_start_ = loop_end_ = -1`); it returns for every sample with
`channels ≠ 0`.  `set_loop` sets the two loop bounds and changes no other member. -/
theorem restart_resets_reader {H β : Type} [Zero β] (r1 r2 : SampleReader H β)
    (play_handle : H) (cached_sample : Entry) (upsample : Int) :
    r1.restart play_handle cached_sample upsample =
      r2.restart play_handle cached_sample upsample ∧
    (cached_sample.channels ≠ 0 →
      ∃ r, r1.restart play_handle cached_sample upsample = some r) ∧
    (∀ r, r1.restart play_handle cached_sample upsample = some r →
      r.relative_pos_ = 0 ∧ r.last_pos_ = 0 ∧ r.last_index_ = -1000 ∧
      r.samples_ = List.replicate 24 0 ∧ (∀ x ∈ r.samples_, x = 0) ∧
      r.loop_start_ = -1 ∧ r.loop_end_ = -1 ∧
      r.play_handle_ = some play_handle ∧ r.cached_sample_ = some cached_sample ∧
      r.channels_ = cached_sample.channels) ∧
    (∀ loop_start loop_end : Int,
      (r1.set_loop loop_start loop_end).loop_start_ = loop_start ∧
      (r1.set_loop loop_start loop_end).loop_end_ = loop_end ∧
      (r1.set_loop loop_start loop_end).play_handle_ = r1.play_handle_ ∧
      (r1.set_loop loop_start loop_end).cached_sample_ = r1.cached_sample_ ∧
      (r1.set_loop loop_start loop_end).relative_pos_ = r1.relative_pos_ ∧
      (r1.set_loop loop_start loop_end).end_pos_ = r1.end_pos_ ∧
      (r1.set_loop loop_start loop_end).last_pos_ = r1.last_pos_ ∧
      (r1.set_loop loop_start loop_end).channels_ = r1.channels_ ∧
      (r1.set_loop loop_start loop_end).samples_ = r1.samples_ ∧
      (r1.set_loop loop_start loop_end).last_index_ = r1.last_index_) := by
  refine ⟨rfl, ?_, ?_, ?_⟩
  · intro h
    unfold SampleReader.restart
    simp only [h, if_false]
    exact ⟨_, rfl⟩
  · intro r hr
    unfold SampleReader.restart at hr
    simp only at hr
    split_ifs at hr
    cases hr
    refine ⟨rfl, rfl, rfl, rfl, ?_, rfl, rfl, rfl, rfl, rfl⟩
    intro x hx
    exact (List.mem_replicate.mp hx).2
  · intro a b
    exact ⟨rfl, rfl, rfl, rfl, rfl, rfl, rfl, rfl, rfl, rfl⟩

/-- C13 (counterexample): for a sample with `n_samples = 0`, `channels = 1` and the
upsample factor `67108864 = 2^26` the product `(0 / 1 + 32) * 67108864 = 2^31` does
not fit the `int` member `end_pos_`, which becomes `-2147483648`, and `done ()` is
true right after `restart`. -/
theorem restart_end_pos_fails :
    ∃ r, sample_reader.restart 7 ⟨0, 1⟩ 67108864 = some r ∧
      r.end_pos_ = -2147483648 ∧ r.end_pos_ ≠ (0 / 1 + 32) * 67108864 ∧ r.done = true :=
  ⟨_, rfl, by decide, by decide, by decide⟩

/-- C13 (amended): for a cached sample with `channels ≥ 1` and `n_samples ≥ 0` and
an upsample factor `≥ 1` such that `(n_samples / channels + 32) * upsample` fits an
`int` (is at most `2147483647`), `restart` returns a reader whose end position is
that value and whose `done ()` is false; and for every reader `done ()` is true if
and only if the position is strictly greater than the end position. -/
theorem restart_end_pos {H β : Type} [Zero β] (reader : SampleReader H β) (play_handle : H)
    (cached_sample : Entry) (upsample : Int)
    (hch : 1 ≤ cached_sample.channels) (hn : 0 ≤ cached_sample.n_samples)
    (hup : 1 ≤ upsample)
    (hfit : (cached_sample.n_samples / cached_sample.channels + 32) * upsample ≤ 2147483647) :
    (∃ r, reader.restart play_handle cached_sample upsample = some r ∧
      r.end_pos_ = (cached_sample.n_samples / cached_sample.channels + 32) * upsample ∧
      r.done = false) ∧
    (∀ r : SampleReader H β, r.done = true ↔ r.relative_pos_ > r.end_pos_) := by
  have hdiv : Int.tdiv cached_sample.n_samples cached_sample.channels =
      cached_sample.n_samples / cached_sample.channels :=
    Int.tdiv_eq_ediv hn (by omega)
  have hq : 0 ≤ cached_sample.n_samples / cached_sample.channels :=
    Int.ediv_nonneg hn (by omega)
  have hpos : 0 ≤ (cached_sample.n_samples / cached_sample.channels + 32) * upsample :=
    Int.mul_nonneg (by omega) (by omega)
  have hwrap : wrap_int ((cached_sample.n_samples / cached_sample.channels + 32) * upsample)
      = (cached_sample.n_samples / cached_sample.channels + 32) * upsample := by
    unfold wrap_int
    omega
  constructor
  · have hne : cached_sample.channels ≠ 0 := by omega
    unfold SampleReader.restart
    simp only [hne, if_false]
    refine ⟨_, rfl, ?_, ?_⟩
    · show wrap_int _ = _
      rw [hdiv, hwrap]
    · show decide ((0 : Int) > wrap_int _) = false
      rw [hdiv, hwrap]
      exact decide_eq_false (by omega)
  · intro r
    unfold SampleReader.done
    exact decide_eq_true_iff

/-- C13 (witness): a stereo sample of 96000 values, upsampled twice: the end
position is `(96000 / 2 + 32) * 2 = 96064`. -/
theorem restart_end_pos_witness :
    ((1 : Int) ≤ 2 ∧ (0 : Int) ≤ 96000 ∧ (1 : Int) ≤ 2 ∧
      ((96000 : Int) / 2 + 32) * 2 ≤ 2147483647) ∧
    ∃ r, sample_reader.restart 7 ⟨96000, 2⟩ 2 = some r ∧ r.end_pos_ = 96064 ∧
      r.done = false :=
  ⟨⟨by decide, by decide, by decide, by decide⟩,
   (restart_end_pos sample_reader 7 ⟨96000, 2⟩ 2 (by decide) (by decide) (by decide)
      (by decide)).1⟩

/-! ## Properties of the log level -/

/-- C14: with `DEBUG < INFO < WARNING < ERROR`, each of `debug`, `info`, `warning`,
`error` calls `logv` (once, with its own severity) if and only if `log_level_` is
at most that severity; when a call is emitted at some level it is emitted at every
lower level; and `error` is emitted at each of the four levels. -/
theorem log_emitted_iff (log_level_ : Log) :
    (Log.DEBUG ≤ Log.INFO ∧ Log.INFO ≤ Log.WARNING ∧ Log.WARNING ≤ Log.ERROR ∧
      ¬ Log.INFO ≤ Log.DEBUG ∧ ¬ Log.WARNING ≤ Log.INFO ∧ ¬ Log.ERROR ≤ Log.WARNING) ∧
    ((Synth.debug log_level_ = [Log.DEBUG] ↔ log_level_ ≤ Log.DEBUG) ∧
      (Synth.debug log_level_ = [] ↔ ¬ log_level_ ≤ Log.DEBUG)) ∧
    ((Synth.info log_level_ = [Log.INFO] ↔ log_level_ ≤ Log.INFO) ∧
      (Synth.info log_level_ = [] ↔ ¬ log_level_ ≤ Log.INFO)) ∧
    ((Synth.warning log_level_ = [Log.WARNING] ↔ log_level_ ≤ Log.WARNING) ∧
      (Synth.warning log_level_ = [] ↔ ¬ log_level_ ≤ Log.WARNING)) ∧
    ((Synth.error log_level_ = [Log.ERROR] ↔ log_level_ ≤ Log.ERROR) ∧
      (Synth.error log_level_ = [] ↔ ¬ log_level_ ≤ Log.ERROR)) ∧
    (∀ lower : Log, lower ≤ log_level_ →
      (Synth.debug log_level_ ≠ [] → Synth.debug lower ≠ []) ∧
      (Synth.info log_level_ ≠ [] → Synth.info lower ≠ []) ∧
      (Synth.warning log_level_ ≠ [] → Synth.warning lower ≠ []) ∧
      (Synth.error log_level_ ≠ [] → Synth.error lower ≠ [])) ∧
    Synth.error (Synth.set_log_level log_level_) = [Log.ERROR] := by
  refine ⟨by decide, ?_, ?_, ?_, ?_, ?_, ?_⟩
  · cases log_level_ <;> decide
  · cases log_level_ <;> decide
  · cases log_level_ <;> decide
  · cases log_level_ <;> decide
  · intro lower
    cases log_level_ <;> cases lower <;> decide
  · cases log_level_ <;> decide

/-! ## `cleanup_regions` against the reference assignment -/

theorem find_in_range_eq_findIdx (note : Int) (rs : List Region) (idx : Nat) :
    find_in_range note rs idx =
      rs.findIdx? (fun r => decide (r.lovel ≤ note ∧ note ≤ r.hivel)) idx := by
  induction rs generalizing idx with
  | nil => rfl
  | cons r rs ih =>
    rw [find_in_range, List.findIdx?_cons, ih]
    by_cases h : r.lovel ≤ note ∧ note ≤ r.hivel
    · have h' : r.lovel ≤ note ∧ r.hivel ≥ note := h
      rw [if_pos h']
      simp [h]
    · have h' : ¬ (r.lovel ≤ note ∧ r.hivel ≥ note) := h
      rw [if_neg h']
      simp [h]

/-- What the closest-`lovel` loop leaves in `(best_dist, note_region[note])`. -/
theorem find_closest_spec (note : Int) (rs : List Region) (idx : Nat) (best : Int)
    (slot : Option Nat) :
    (find_closest note rs idx (best, slot) = (best, slot) ∧
      ∀ r ∈ rs, best ≤ lovel_dist note r.lovel) ∨
    (∃ j r, rs[j]? = some r ∧
      find_closest note rs idx (best, slot) = (lovel_dist note r.lovel, some (idx + j)) ∧
      lovel_dist note r.lovel < best ∧
      (∀ q ∈ rs, lovel_dist note r.lovel ≤ lovel_dist note q.lovel) ∧
      ∀ k q, k < j → rs[k]? = some q → lovel_dist note r.lovel < lovel_dist note q.lovel) := by
  induction rs generalizing idx best slot with
  | nil => left; exact ⟨rfl, by simp⟩
  | cons a rs ih =>
    by_cases h : lovel_dist note a.lovel < best
    · have hstep : find_closest note (a :: rs) idx (best, slot) =
          find_closest note rs (idx + 1) (lovel_dist note a.lovel, some idx) := by
        rw [find_closest]; simp only [h, if_true]
      rw [hstep]
      right
      rcases ih (idx + 1) (lovel_dist note a.lovel) (some idx) with ⟨h1, h2⟩ | ⟨j, r, h1, h2, h3, h4, h5⟩
      · refine ⟨0, a, by simp, by rw [h1]; rfl, h, ?_, ?_⟩
        · intro q hq
          rcases List.mem_cons.mp hq with rfl | hq
          · exact le_refl _
          · exact h2 q hq
        · intro k q hk; omega
      · refine ⟨j + 1, r, by simpa using h1, ?_, lt_trans h3 h, ?_, ?_⟩
        · rw [h2]
          have : idx + 1 + j = idx + (j + 1) := by omega
          rw [this]
        · intro q hq
          rcases List.mem_cons.mp hq with rfl | hq
          · exact le_of_lt h3
          · exact h4 q hq
        · intro k q hk hkq
          cases k with
          | zero =>
            simp only [List.getElem?_cons_zero, Option.some.injEq] at hkq
            subst hkq
            exact h3
          | succ k =>
            simp only [List.getElem?_cons_succ] at hkq
            exact h5 k q (by omega) hkq
    · have hstep : find_closest note (a :: rs) idx (best, slot) =
          find_closest note rs (idx + 1) (best, slot) := by
        rw [find_closest]; simp only [h, if_false]
      rw [hstep]
      have hle : best ≤ lovel_dist note a.lovel := not_lt.mp h
      rcases ih (idx + 1) best slot with ⟨h1, h2⟩ | ⟨j, r, h1, h2, h3, h4, h5⟩
      · left
        refine ⟨h1, ?_⟩
        intro q hq
        rcases List.mem_cons.mp hq with rfl | hq
        · exact hle
        · exact h2 q hq
      · right
        refine ⟨j + 1, r, by simpa using h1, ?_, h3, ?_, ?_⟩
        · rw [h2]
          have : idx + 1 + j = idx + (j + 1) := by omega
          rw [this]
        · intro q hq
          rcases List.mem_cons.mp hq with rfl | hq
          · exact le_of_lt (lt_of_lt_of_le h3 hle)
          · exact h4 q hq
        · intro k q hk hkq
          cases k with
          | zero =>
            simp only [List.getElem?_cons_zero, Option.some.injEq] at hkq
            subst hkq
            exact lt_of_lt_of_le h3 hle
          | succ k =>
            simp only [List.getElem?_cons_succ] at hkq
            exact h5 k q (by omega) hkq

theorem lovel_dist_in_range (regions : List Region) (hr : lovel_in_range regions) (v : Nat)
    (hv1 : 1 ≤ v) (hv : v ≤ 127) (r : Region) (hmem : r ∈ regions) :
    lovel_dist (v : Int) r.lovel = (((v : Int) - r.lovel).natAbs : Int) := by
  obtain ⟨h1, h2⟩ := hr r hmem
  exact lovel_dist_eq_natAbs _ _ (by omega) (by omega)

/-- C15: for every region list whose `lovel` values are `int`s for which
`note - lovel` does not overflow, and every velocity `v` in 1..127, the slot
`note_region[v]` computed by `cleanup_regions` is the region the reference names:
the first region whose input range contains `v`, otherwise the region with the
smallest `|v - lovel|` provided that distance is `< 128`, the lowest index on ties
(and no region when no distance is `< 128`). -/
theorem note_region_eq_reference (regions : List Region) (v : Nat) (hv1 : 1 ≤ v)
    (hv : v ≤ 127) (hr : lovel_in_range regions) :
    note_region regions v = reference_assign regions (v : Int) := by
  unfold note_region
  rw [if_pos ⟨hv1, hv⟩]
  unfold assign_note reference_assign
  rw [find_in_range_eq_findIdx]
  cases hfind : List.findIdx? (fun r => decide (r.lovel ≤ (v : Int) ∧ (v : Int) ≤ r.hivel))
      regions 0 with
  | some i => rfl
  | none =>
    simp only
    have hd := lovel_dist_in_range regions hr v hv1 hv
    rcases find_closest_spec (v : Int) regions 0 128 none with ⟨h1, h2⟩ | ⟨j, r, h1, h2, h3, h4, h5⟩
    · rw [h1]
      symm
      rw [List.findIdx?_eq_none_iff]
      intro x hx
      have hx2 := h2 x hx
      rw [hd x hx] at hx2
      simp only [decide_eq_false_iff_not, not_and]
      intro hlt
      omega
    · rw [h2]
      symm
      simp only [Nat.zero_add]
      rw [List.findIdx?_eq_some_iff_getElem]
      obtain ⟨hj, hjr⟩ := List.getElem?_eq_some.mp h1
      have hrmem : r ∈ regions := List.getElem?_mem h1
      refine ⟨hj, ?_, ?_⟩
      · rw [hjr]
        simp only [decide_eq_true_eq]
        constructor
        · have := h3
          rw [hd r hrmem] at this
          omega
        · intro q hq
          have := h4 q hq
          rw [hd r hrmem, hd q hq] at this
          omega
      · intro k hk
        have hkq : regions[k]? = some (regions.get ⟨k, Nat.lt_trans hk hj⟩) := by
          simp [List.getElem?_eq_getElem (Nat.lt_trans hk hj)]
        have hqmem : regions.get ⟨k, Nat.lt_trans hk hj⟩ ∈ regions := List.getElem?_mem hkq
        have := h5 k _ hk hkq
        rw [hd r hrmem, hd _ hqmem] at this
        simp only [List.get_eq_getElem] at this hqmem
        simp only [decide_eq_true_eq, not_and, not_forall]
        intro _
        refine ⟨r, hrmem, ?_⟩
        omega

set_option maxRecDepth 100000 in
/-- C15 (witness): velocity 120 lies in no range of the layers `[10, 20]`,
`[60, 100]`, `[60, 90]`; the second and the third layer tie at distance 60 and the
second one, with the lower index, gets the velocity. -/
theorem note_region_eq_reference_witness :
    (1 ≤ 120 ∧ 120 ≤ 127 ∧
      lovel_in_range [⟨"a", 10, 20⟩, ⟨"b", 60, 100⟩, ⟨"c", 60, 90⟩]) ∧
    note_region [⟨"a", 10, 20⟩, ⟨"b", 60, 100⟩, ⟨"c", 60, 90⟩] 120 = some 1 ∧
    note_region [⟨"a", 10, 20⟩, ⟨"b", 60, 100⟩, ⟨"c", 60, 90⟩] 120 =
      reference_assign [⟨"a", 10, 20⟩, ⟨"b", 60, 100⟩, ⟨"c", 60, 90⟩] ((120 : Nat) : Int) :=
  ⟨⟨by decide, by decide, by decide⟩, by decide,
   note_region_eq_reference [⟨"a", 10, 20⟩, ⟨"b", 60, 100⟩, ⟨"c", 60, 90⟩] 120 (by decide)
     (by decide) (by decide)⟩

theorem countP_one_unique {α : Type} (p : α → Bool) (l : List α) (h : l.countP p = 1)
    (i j : Nat) (a b : α) (hi : l[i]? = some a) (hj : l[j]? = some b)
    (ha : p a = true) (hb : p b = true) : i = j := by
  induction l generalizing i j with
  | nil => simp at hi
  | cons x xs ih =>
    have hpos : ∀ (k : Nat) (c : α), xs[k]? = some c → p c = true → 1 ≤ xs.countP p := by
      intro k c hk hc
      exact List.countP_pos_iff.mpr ⟨c, List.getElem?_mem hk, hc⟩
    rw [List.countP_cons] at h
    cases i with
    | zero =>
      cases j with
      | zero => rfl
      | succ j =>
        simp only [List.getElem?_cons_zero, Option.some.injEq] at hi
        simp only [List.getElem?_cons_succ] at hj
        subst hi
        have := hpos j b hj hb
        simp only [ha, if_true] at h
        omega
    | succ i =>
      simp only [List.getElem?_cons_succ] at hi
      cases j with
      | zero =>
        simp only [List.getElem?_cons_zero, Option.some.injEq] at hj
        subst hj
        have := hpos i a hi ha
        simp only [hb, if_true] at h
        omega
      | succ j =>
        simp only [List.getElem?_cons_succ] at hj
        have := hpos i a hi ha
        by_cases hx : p x = true
        · simp only [hx, if_true] at h
          omega
        · simp only [hx] at h
          have h' : xs.countP p = 1 := by simpa using h
          rw [ih h' i j hi hj]

/-- In a well-formed list the slot of a velocity is the one region containing it. -/
theorem note_region_well_formed (regions : List Region) (hwf : well_formed regions)
    (v : Nat) (hv1 : 1 ≤ v) (hv : v ≤ 127) (i : Nat) (r : Region)
    (hi : regions[i]? = some r) :
    note_region regions v = some i ↔ (r.lovel ≤ (v : Int) ∧ (v : Int) ≤ r.hivel) := by
  have hcount := hwf.2 v ((mem_notes v).2 ⟨hv1, hv⟩)
  have hex : ∃ a ∈ regions, decide (a.lovel ≤ (v : Int) ∧ (v : Int) ≤ a.hivel) = true := by
    apply List.countP_pos_iff.mp
    omega
  unfold note_region
  rw [if_pos ⟨hv1, hv⟩]
  unfold assign_note
  rw [find_in_range_eq_findIdx]
  cases hfind : List.findIdx? (fun r => decide (r.lovel ≤ (v : Int) ∧ (v : Int) ≤ r.hivel))
      regions 0 with
  | none =>
    exfalso
    obtain ⟨a, ha, hpa⟩ := hex
    have := (List.findIdx?_eq_none_iff.mp hfind) a ha
    simp only [hpa] at this
    exact Bool.noConfusion this
  | some k =>
    simp only [Option.some.injEq]
    obtain ⟨hk, hpk, -⟩ := List.findIdx?_eq_some_iff_getElem.mp hfind
    have hkq : regions[k]? = some regions[k] := List.getElem?_eq_getElem hk
    constructor
    · intro hki
      subst hki
      rw [hkq] at hi
      cases hi
      simpa using hpk
    · intro hc
      exact countP_one_unique _ regions hcount k i _ r hkq hi hpk (by simpa using hc)

/-- C18: for a well-formed region list (every range with `1 ≤ lovel ≤ hivel ≤ 127`,
every velocity 1..127 in exactly one range) `cleanup_regions` returns the list
unchanged, each region with its `lovel` and `hivel`, and a second application
gives the same list as the first. -/
theorem cleanup_regions_well_formed (regions : List Region) (hwf : well_formed regions) :
    cleanup_regions regions = regions ∧
    (∀ (i : Nat) (r : Region), regions[i]? = some r →
      ∃ r2 : Region, (cleanup_regions regions)[i]? = some r2 ∧
      r2.lovel = r.lovel ∧ r2.hivel = r.hivel) ∧
    cleanup_regions (cleanup_regions regions) = cleanup_regions regions := by
  have hfix : cleanup_regions regions = regions := by
    apply List.ext_getElem?
    intro i
    unfold cleanup_regions
    rw [rewrite_regions_get]
    cases hi : regions[i]? with
    | none => rfl
    | some r =>
      simp only [Option.map_some', Nat.zero_add, Option.some.injEq]
      obtain ⟨hb1, hb2, hb3⟩ := hwf.1 r (List.getElem?_mem hi)
      obtain ⟨h1, h2, h3⟩ := rederive_spec (note_region regions) i
      have hin : ∀ n : Nat, 1 ≤ n → n ≤ 127 →
          (note_region regions n = some i ↔ (r.lovel ≤ (n : Int) ∧ (n : Int) ≤ r.hivel)) :=
        fun n hn1 hn => note_region_well_formed regions hwf n hn1 hn i r hi
      have hlo := h1 r.lovel.toNat (by omega) (by omega)
        ((hin _ (by omega) (by omega)).2 (by omega))
      have hhi := h1 r.hivel.toNat (by omega) (by omega)
        ((hin _ (by omega) (by omega)).2 (by omega))
      have e1 : (rederive (note_region regions) i).1 = r.lovel := by
        rcases h2 with h2 | ⟨n, hn1, hn, hm, he⟩
        · omega
        · have := (hin n hn1 hn).1 hm
          omega
      have e2 : (rederive (note_region regions) i).2 = r.hivel := by
        rcases h3 with h3 | ⟨n, hn1, hn, hm, he⟩
        · omega
        · have := (hin n hn1 hn).1 hm
          omega
      rw [e1, e2]
  refine ⟨hfix, ?_, by rw [hfix, hfix]⟩
  intro i r hi
  exact ⟨r, by rw [hfix]; exact hi, rfl, rfl⟩

set_option maxRecDepth 100000 in
/-- C18 (witness): the layers `[1, 64]` and `[65, 127]`. -/
theorem cleanup_regions_well_formed_witness :
    well_formed [⟨"soft.wav", 1, 64⟩, ⟨"hard.wav", 65, 127⟩] ∧
    cleanup_regions [⟨"soft.wav", 1, 64⟩, ⟨"hard.wav", 65, 127⟩] =
      [⟨"soft.wav", 1, 64⟩, ⟨"hard.wav", 65, 127⟩] :=
  ⟨by decide,
   (cleanup_regions_well_formed [⟨"soft.wav", 1, 64⟩, ⟨"hard.wav", 65, 127⟩] (by decide)).1⟩

/-! ## Sub-blocks and unsupported events -/

/-- The loop of `process_audio` is the voice loop run over its sub-blocks. -/
theorem process_audio_loop_eq_render (env : Env α χ β) (c : χ) (g n_frames offset fuel i : Nat)
    (vs : List (Voice α)) (out : Outputs β) :
    process_audio_loop env c g n_frames offset fuel i vs out =
      (sub_blocks env.MAX_BLOCK_SIZE n_frames offset fuel i).map
        (fun bs => render_blocks env c g bs vs out) := by
  induction fuel generalizing i vs out with
  | zero =>
    by_cases h : i < n_frames <;> simp [process_audio_loop, sub_blocks, h, render_blocks]
  | succ fuel ih =>
    by_cases h : i < n_frames
    · rw [process_audio_loop_step env c g n_frames offset fuel i vs out h, ih, sub_blocks,
        if_pos h]
      cases sub_blocks env.MAX_BLOCK_SIZE n_frames offset fuel
          (i + min (n_frames - i) env.MAX_BLOCK_SIZE) with
      | none => rfl
      | some bs => rfl
    · rw [process_audio_loop_done env c g n_frames offset _ i vs out h, sub_blocks, if_neg h]
      rfl

/-- The sub-blocks tile the rest of the slice. -/
theorem sub_blocks_spec (max_block_size n_frames offset : Nat) (hmax : 1 ≤ max_block_size)
    (fuel i : Nat) (hfuel : n_frames - i ≤ fuel) :
    ∃ bs, sub_blocks max_block_size n_frames offset fuel i = some bs ∧
      consecutive_from (offset + i) bs ∧
      (bs.map (fun b => List.range' b.1 b.2)).flatten = List.range' (offset + i) (n_frames - i) ∧
      (bs.map Prod.snd).sum = n_frames - i ∧
      (∀ b ∈ bs, 1 ≤ b.2 ∧ b.2 ≤ max_block_size) ∧
      (∀ k b, k + 1 < bs.length → bs[k]? = some b → b.2 = max_block_size) ∧
      (n_frames ≤ i → bs = []) := by
  induction fuel generalizing i with
  | zero =>
    have h : ¬ i < n_frames := by omega
    have hz : n_frames - i = 0 := by omega
    refine ⟨[], by simp [sub_blocks, h], trivial, by simp [hz], by simp [hz], by simp, ?_,
      fun _ => rfl⟩
    intro k b hk; simp at hk
  | succ fuel ih =>
    by_cases h : i < n_frames
    · have htodo1 : 1 ≤ min (n_frames - i) max_block_size := by
        rw [Nat.le_min]; exact ⟨by omega, hmax⟩
      have htodo2 : min (n_frames - i) max_block_size ≤ n_frames - i := Nat.min_le_left _ _
      have htodo3 : min (n_frames - i) max_block_size ≤ max_block_size := Nat.min_le_right _ _
      obtain ⟨bs, h1, h2, h3, h4, h5, h6, h7⟩ :=
        ih (i + min (n_frames - i) max_block_size) (by omega)
      refine ⟨(offset + i, min (n_frames - i) max_block_size) :: bs, ?_, ?_, ?_, ?_, ?_, ?_, ?_⟩
      · rw [sub_blocks, if_pos h, h1]
      · refine ⟨rfl, ?_⟩
        rw [Nat.add_assoc]
        exact h2
      · simp only [List.map_cons, List.flatten_cons]
        rw [h3]
        have e1 : offset + (i + min (n_frames - i) max_block_size) =
            offset + i + min (n_frames - i) max_block_size := by omega
        have e2 : n_frames - i = (n_frames - (i + min (n_frames - i) max_block_size)) +
            min (n_frames - i) max_block_size := by omega
        rw [e1, List.range'_append_1, ← e2]
      · simp only [List.map_cons, List.sum_cons]
        rw [h4]
        omega
      · intro b hb
        rcases List.mem_cons.mp hb with rfl | hb
        · exact ⟨htodo1, htodo3⟩
        · exact h5 b hb
      · intro k b hk hkb
        cases k with
        | zero =>
          simp only [List.getElem?_cons_zero, Option.some.injEq] at hkb
          subst hkb
          show min (n_frames - i) max_block_size = max_block_size
          have hne : bs ≠ [] := by
            intro hnil
            rw [hnil] at hk
            simp at hk
          have hlt : ¬ n_frames ≤ i + min (n_frames - i) max_block_size :=
            fun hc => hne (h7 hc)
          rw [Nat.min_def]
          split_ifs with hmin
          · rw [Nat.min_eq_left hmin] at hlt
            omega
          · rfl
        | succ k =>
          simp only [List.getElem?_cons_succ] at hkb
          simp only [List.length_cons] at hk
          exact h6 k b (by omega) hkb
      · intro hc; omega
    · have hz : n_frames - i = 0 := by omega
      refine ⟨[], by rw [sub_blocks, if_neg h], trivial, by simp [hz], by simp [hz], by simp,
        ?_, fun _ => rfl⟩
      intro k b hk; simp at hk

/-- C16: for every slice length `n_frames` and `MAX_BLOCK_SIZE ≥ 1`, `process_audio`
returns; it runs the voice loop once for each of its sub-blocks, which follow each
other from `offset` on and cover exactly the frames `offset, ..., offset +
n_frames - 1`; every sub-block has a length between 1 and `MAX_BLOCK_SIZE`, all but
the last have length `MAX_BLOCK_SIZE`, the lengths sum to `n_frames`, and for
`n_frames = 0` there is no sub-block and no voice is processed. -/
theorem process_audio_sub_blocks (env : Env α χ β) (s : Synth α χ) (out : Outputs β)
    (n_frames offset : Nat) (hmax : 1 ≤ env.MAX_BLOCK_SIZE) :
    ∃ bs r, sub_blocks env.MAX_BLOCK_SIZE n_frames offset n_frames 0 = some bs ∧
      process_audio env s out n_frames offset = some r ∧
      r.1.voices_ = (render_blocks env s.rest s.global_frame_count bs s.voices_ out).1 ∧
      r.2.1 = (render_blocks env s.rest s.global_frame_count bs s.voices_ out).2.1 ∧
      r.2.2 = Call.process_audio n_frames offset ::
        (render_blocks env s.rest s.global_frame_count bs s.voices_ out).2.2 ∧
      consecutive_from offset bs ∧
      (bs.map (fun b => List.range' b.1 b.2)).flatten = List.range' offset n_frames ∧
      (bs.map Prod.snd).sum = n_frames ∧
      (∀ b ∈ bs, 1 ≤ b.2 ∧ b.2 ≤ env.MAX_BLOCK_SIZE) ∧
      (∀ k b, k + 1 < bs.length → bs[k]? = some b → b.2 = env.MAX_BLOCK_SIZE) ∧
      (n_frames = 0 → bs = [] ∧ processed_voices r.2.2 = []) := by
  obtain ⟨bs, h1, h2, h3, h4, h5, h6, h7⟩ :=
    sub_blocks_spec env.MAX_BLOCK_SIZE n_frames offset hmax n_frames 0 (by omega)
  have hloop := process_audio_loop_eq_render env s.rest s.global_frame_count n_frames offset
    n_frames 0 s.voices_ out
  rw [h1] at hloop
  have hpa : process_audio env s out n_frames offset =
      some ({ s with
              voices_ := (render_blocks env s.rest s.global_frame_count bs s.voices_ out).1
              global_frame_count := s.global_frame_count + n_frames },
            (render_blocks env s.rest s.global_frame_count bs s.voices_ out).2.1,
            Call.process_audio n_frames offset ::
              (render_blocks env s.rest s.global_frame_count bs s.voices_ out).2.2) := by
    unfold process_audio
    rw [hloop]
    rfl
  refine ⟨bs, _, h1, hpa, rfl, rfl, rfl, h2, h3, h4, h5, h6, ?_⟩
  intro hn
  have hnil : bs = [] := h7 (by omega)
  refine ⟨hnil, ?_⟩
  rw [hnil]
  rfl

/-- C16 (witness): a slice of 2500 frames at offset 100 with `MAX_BLOCK_SIZE = 1024`
is rendered in the sub-blocks `(100, 1024)`, `(1124, 1024)`, `(2148, 452)`. -/
theorem process_audio_sub_blocks_witness :
    1 ≤ sample_env.MAX_BLOCK_SIZE ∧
    sub_blocks sample_env.MAX_BLOCK_SIZE 2500 100 2500 0 =
      some [(100, 1024), (1124, 1024), (2148, 452)] ∧
    ∃ bs r, sub_blocks sample_env.MAX_BLOCK_SIZE 2500 100 2500 0 = some bs ∧
      process_audio sample_env sample_synth sample_out 2500 100 = some r ∧
      (bs.map Prod.snd).sum = 2500 :=
  ⟨by decide, by decide,
   (process_audio_sub_blocks sample_env sample_synth sample_out 2500 100 (by decide)).imp
     (fun _ h => h.imp (fun _ h2 => ⟨h2.1, h2.2.1, h2.2.2.2.2.2.2.2.1⟩))⟩

theorem handler_calls_dispatched (tr : List Call) :
    handler_calls (dispatched tr) = handler_calls tr := by
  induction tr with
  | nil => rfl
  | cons c cs ih => cases c <;> simp [dispatched, handler_calls, ih]

theorem handler_calls_map_dispatch_call (es : List Event) :
    handler_calls (es.map dispatch_call) = (es.filter Event.supported).map dispatch_call := by
  induction es with
  | nil => rfl
  | cons e es ih =>
    have h : ∀ t, e.type = t →
        handler_calls (dispatch_call e :: es.map dispatch_call) =
          ((e :: es).filter Event.supported).map dispatch_call := by
      intro t ht
      cases t <;>
        simp [dispatch_call, Event.supported, ht, handler_calls, List.filter_cons, ih]
    exact h e.type rfl

/-! ## The call list of `process` replayed -/

theorem replay_cons_other (env : Env α χ β) (c : Call) (cs : List Call) (s : Synth α χ)
    (out : Outputs β) (h : ∀ n offset, c ≠ Call.process_audio n offset) :
    replay env (c :: cs) s out = replay env cs (apply_call env c s) out := by
  cases c with
  | process_audio n offset => exact absurd rfl (h n offset)
  | _ => rfl

theorem dispatch_call_ne_audio (e : Event) (n offset : Nat) :
    dispatch_call e ≠ Call.process_audio n offset := by
  unfold dispatch_call
  cases e.type <;> simp

theorem apply_call_dispatch_call (env : Env α χ β) (e : Event) (s : Synth α χ) :
    apply_call env (dispatch_call e) s = dispatch env s e := by
  unfold dispatch_call dispatch
  cases e.type <;> rfl

theorem replay_only_voice_calls (env : Env α χ β) (vt : List Call) (h : only_voice_calls vt)
    (cs : List Call) (s : Synth α χ) (out : Outputs β) :
    replay env (vt ++ cs) s out = replay env cs s out := by
  induction vt with
  | nil => rfl
  | cons c vt ih =>
    obtain ⟨i, a, b, rfl⟩ := h c (List.mem_cons_self _ _)
    rw [List.cons_append, replay_cons_other env _ _ _ _ (by intro n o; simp)]
    exact ih (fun c hc => h c (List.mem_cons_of_mem _ hc))

/-- Replaying the calls of one `process_audio` call is that call. -/
theorem replay_process_audio (env : Env α χ β) (s : Synth α χ) (out : Outputs β)
    (n_frames offset : Nat) (r : Synth α χ × Outputs β × List Call)
    (hr : process_audio env s out n_frames offset = some r) (cs : List Call) :
    replay env (r.2.2 ++ cs) s out = replay env cs r.1 r.2.1 := by
  obtain ⟨-, -, -, vt, htr, hvt, -⟩ := process_audio_result env s out n_frames offset r hr
  rw [htr, List.cons_append, replay, hr]
  exact replay_only_voice_calls env vt hvt cs r.1 r.2.1

/-- On a synth with another event queue `process_audio` does the same. -/
theorem process_audio_events (env : Env α χ β) (s : Synth α χ) (out : Outputs β)
    (n_frames offset : Nat) (events : List Event) (r : Synth α χ × Outputs β × List Call)
    (hr : process_audio env { s with events := events } out n_frames offset = some r) :
    process_audio env s out n_frames offset =
      some ({ r.1 with events := s.events }, r.2.1, r.2.2) := by
  unfold process_audio at hr ⊢
  simp only at hr ⊢
  split at hr
  · exact Option.noConfusion hr
  · rename_i r0 hr0
    cases hr
    rfl

theorem rendered_frames_audio (env : Env α χ β) (s : Synth α χ) (out : Outputs β)
    (n_frames offset : Nat) (r : Synth α χ × Outputs β × List Call)
    (hr : process_audio env s out n_frames offset = some r) :
    rendered_frames r.2.2 = List.range' offset n_frames ∧ dispatched r.2.2 = [] := by
  obtain ⟨-, -, -, vt, htr, hvt, -⟩ := process_audio_result env s out n_frames offset r hr
  obtain ⟨-, -, h3, h4, -⟩ := only_voice_calls_reads vt hvt
  rw [htr]
  simp [rendered_frames, dispatched, h3, h4]

/-- The event loop of `process`, event by event: the calls made before the call
for the `k`-th event, replayed, give the synth that event is applied to; the calls
after it, replayed on the synth the handler leaves, give the result of the loop. -/
theorem process_events_split (env : Env α χ β) (n_frames : Nat) (es : List Event)
    (offset : Nat) (s : Synth α χ) (out : Outputs β)
    (r : Synth α χ × Outputs β × Nat × List Call)
    (hr : process_events env n_frames es offset s out = some r) :
    dispatched r.2.2.2 = es.map dispatch_call ∧
    (∀ cs, replay env (r.2.2.2 ++ cs) s out = replay env cs r.1 r.2.1) ∧
    ∀ k e, es[k]? = some e → ∃ pre post s1 out1,
      r.2.2.2 = pre ++ dispatch_call e :: post ∧
      (dispatched pre).length = k ∧
      dispatched post = (es.drop (k + 1)).map dispatch_call ∧
      replay env pre s out = some (s1, out1) ∧
      (∀ cs, replay env (post ++ cs) (apply_call env (dispatch_call e) s1) out1 =
        replay env cs r.1 r.2.1) ∧
      (n_frames < UINT_SIZE → offset ≤ n_frames → (∀ q ∈ es, offset ≤ q.time_frames) →
        events_sorted es →
        rendered_frames pre = List.range' offset (min e.time_frames n_frames - offset) ∧
        offset ≤ min e.time_frames n_frames ∧ min e.time_frames n_frames ≤ r.2.2.1 ∧
        (∀ f ∈ rendered_frames post, min e.time_frames n_frames ≤ f) ∧
        s1.global_frame_count =
          s.global_frame_count + (min e.time_frames n_frames - offset)) := by
  induction es generalizing offset s out r with
  | nil =>
    rw [process_events] at hr
    cases hr
    refine ⟨rfl, fun cs => rfl, ?_⟩
    intro k e hk
    simp at hk
  | cons e es ih =>
    obtain ⟨r1, r2, hr1, hr2, rfl⟩ := process_events_cons_inv env n_frames e es offset s out r hr
    obtain ⟨i1, i2, i3⟩ := ih _ _ _ r2 hr2
    obtain ⟨hfr1, hdp1⟩ := rendered_frames_audio env s out _ _ r1 hr1
    have hg1 := (process_audio_result env s out _ _ r1 hr1).1
    have hcont : ∀ cs, replay env ((r1.2.2 ++ dispatch_call e :: r2.2.2.2) ++ cs) s out =
        replay env cs r2.1 r2.2.1 := by
      intro cs
      rw [List.append_assoc, replay_process_audio env s out _ _ r1 hr1, List.cons_append,
        replay_cons_other env _ _ _ _ (dispatch_call_ne_audio e), apply_call_dispatch_call]
      exact i2 cs
    refine ⟨?_, hcont, ?_⟩
    · show dispatched (r1.2.2 ++ dispatch_call e :: r2.2.2.2) = _
      rw [dispatched_append, dispatched_dispatch_call, hdp1, i1]
      rfl
    · intro k e' hk
      cases k with
      | zero =>
        simp only [List.getElem?_cons_zero, Option.some.injEq] at hk
        subst hk
        refine ⟨r1.2.2, r2.2.2.2, r1.1, r1.2.1, rfl, by rw [hdp1]; rfl, ?_, ?_, ?_, ?_⟩
        · rw [i1]; rfl
        · have := replay_process_audio env s out _ _ r1 hr1 []
          simpa [replay] using this
        · intro cs
          rw [apply_call_dispatch_call]
          exact i2 cs
        · intro hn hoff hlo hs
          have hoe : offset ≤ e.time_frames := hlo e (List.mem_cons_self _ _)
          have hnew : offset ≤ min e.time_frames n_frames := Nat.le_min.mpr ⟨hoe, hoff⟩
          have hnewn : min e.time_frames n_frames ≤ n_frames := Nat.min_le_right _ _
          have hsub : uint_sub (min e.time_frames n_frames) offset
              = min e.time_frames n_frames - offset :=
            uint_sub_of_le _ _ hnew (lt_of_le_of_lt hnewn hn)
          have hs' : events_sorted es := (List.pairwise_cons.mp hs).2
          have hlo' : ∀ q ∈ es, min e.time_frames n_frames ≤ q.time_frames := by
            intro q hq
            exact le_trans (Nat.min_le_left _ _) ((List.pairwise_cons.mp hs).1 q hq)
          obtain ⟨q1, -, q3, -⟩ := process_events_sorted env n_frames es _ _ _ r2 hr2 hn hnewn
            hlo' hs'
          rw [hsub] at hfr1 hg1
          refine ⟨hfr1, hnew, q1, ?_, hg1⟩
          intro f hf
          rw [q3, List.mem_range'_1] at hf
          exact hf.1
      | succ k =>
        simp only [List.getElem?_cons_succ] at hk
        obtain ⟨pre, post, s1, out1, p1, p2, p3, p4, p5, p6⟩ := i3 k e' hk
        refine ⟨r1.2.2 ++ dispatch_call e :: pre, post, s1, out1, ?_, ?_, ?_, ?_, p5, ?_⟩
        · show r1.2.2 ++ dispatch_call e :: r2.2.2.2 = _
          rw [p1]; simp
        · rw [dispatched_append, dispatched_dispatch_call, hdp1]
          simp [p2]
        · rw [p3]; rfl
        · have := replay_process_audio env s out _ _ r1 hr1 (dispatch_call e :: pre)
          rw [this, replay_cons_other env _ _ _ _ (dispatch_call_ne_audio e),
            apply_call_dispatch_call]
          exact p4
        · intro hn hoff hlo hs
          have hoe : offset ≤ e.time_frames := hlo e (List.mem_cons_self _ _)
          have hnew : offset ≤ min e.time_frames n_frames := Nat.le_min.mpr ⟨hoe, hoff⟩
          have hnewn : min e.time_frames n_frames ≤ n_frames := Nat.min_le_right _ _
          have hsub : uint_sub (min e.time_frames n_frames) offset
              = min e.time_frames n_frames - offset :=
            uint_sub_of_le _ _ hnew (lt_of_le_of_lt hnewn hn)
          have hs' : events_sorted es := (List.pairwise_cons.mp hs).2
          have hlo' : ∀ q ∈ es, min e.time_frames n_frames ≤ q.time_frames := by
            intro q hq
            exact le_trans (Nat.min_le_left _ _) ((List.pairwise_cons.mp hs).1 q hq)
          obtain ⟨t1, t2, t3, t4, t5⟩ := p6 hn hnewn hlo' hs'
          rw [hsub] at hfr1 hg1
          rw [(dispatch_frame env r1.1 e).2, hg1] at t5
          refine ⟨?_, le_trans hnew t2, t3, t4, ?_⟩
          · rw [rendered_frames_append, (reads_dispatch_call e pre).2.2.1, hfr1, t1]
            exact range_glue _ _ _ hnew t2
          · rw [t5]; omega

theorem process_events_keeps_events (env : Env α χ β) (n_frames : Nat) (es : List Event)
    (offset : Nat) (s : Synth α χ) (out : Outputs β)
    (r : Synth α χ × Outputs β × Nat × List Call)
    (hr : process_events env n_frames es offset s out = some r) :
    r.1.events = s.events := by
  induction es generalizing offset s out r with
  | nil =>
    rw [process_events] at hr
    cases hr
    rfl
  | cons e es ih =>
    obtain ⟨r1, r2, hr1, hr2, rfl⟩ := process_events_cons_inv env n_frames e es offset s out r hr
    show r2.1.events = s.events
    rw [ih _ _ _ r2 hr2, (dispatch_frame env r1.1 e).1,
      (process_audio_result env s out _ _ r1 hr1).2.1]

/-- A whole `process` call, event by event: replaying its calls on the synth it
started from (buffers zeroed) gives the synth and the buffers it returns, up to the
cleared queue; the calls before the call for the `k`-th event give the synth that
event's handler is applied to. -/
theorem process_split [Zero β] (env : Env α χ β) (s : Synth α χ) (out : Outputs β)
    (n_frames : Nat) (r : Synth α χ × Outputs β × List Call)
    (hr : process env s out n_frames = some r) :
    replay env r.2.2 s (zero_float_block n_frames out.1, zero_float_block n_frames out.2) =
      some ({ r.1 with events := s.events }, r.2.1) ∧
    ∀ k e, s.events[k]? = some e → ∃ pre post s1 out1,
      r.2.2 = pre ++ dispatch_call e :: post ∧
      (dispatched pre).length = k ∧
      dispatched post = (s.events.drop (k + 1)).map dispatch_call ∧
      replay env pre s (zero_float_block n_frames out.1, zero_float_block n_frames out.2) =
        some (s1, out1) ∧
      replay env post (apply_call env (dispatch_call e) s1) out1 =
        some ({ r.1 with events := s.events }, r.2.1) ∧
      (n_frames < UINT_SIZE → events_sorted s.events →
        rendered_frames pre = List.range (min e.time_frames n_frames) ∧
        (∀ f ∈ rendered_frames post, min e.time_frames n_frames ≤ f) ∧
        s1.global_frame_count = s.global_frame_count + min e.time_frames n_frames) := by
  obtain ⟨r1, r2, hr1, hr2, rfl⟩ := process_inv env s out n_frames r hr
  obtain ⟨-, c2, c3⟩ := process_events_split env n_frames s.events 0 s _ r1 hr1
  have hev := process_events_keeps_events env n_frames s.events 0 s _ r1 hr1
  have hr2' := process_audio_events env r1.1 r1.2.1 _ _ [] r2 hr2
  rw [hev] at hr2'
  have hfinal : ∀ cs, replay env (r2.2.2 ++ cs) r1.1 r1.2.1 =
      replay env cs { r2.1 with events := s.events } r2.2.1 :=
    fun cs => replay_process_audio env r1.1 r1.2.1 _ _ _ hr2' cs
  have hfinal0 : replay env r2.2.2 r1.1 r1.2.1 =
      some ({ r2.1 with events := s.events }, r2.2.1) := by
    have := hfinal []
    simpa [replay] using this
  obtain ⟨hfr2, hdp2⟩ := rendered_frames_audio env _ _ _ _ r2 hr2
  constructor
  · show replay env (r1.2.2.2 ++ r2.2.2) s _ = _
    rw [c2 r2.2.2, hfinal0]
  · intro k e hk
    obtain ⟨pre, post, s1, out1, p1, p2, p3, p4, p5, p6⟩ := c3 k e hk
    refine ⟨pre, post ++ r2.2.2, s1, out1, ?_, p2, ?_, p4, ?_, ?_⟩
    · show r1.2.2.2 ++ r2.2.2 = _
      rw [p1]; simp
    · rw [dispatched_append, hdp2, p3, List.append_nil]
    · rw [p5 r2.2.2, hfinal0]
    · intro hn hs
      obtain ⟨t1, -, t3, t4, t5⟩ := p6 hn (Nat.zero_le _) (fun q _ => Nat.zero_le _) hs
      refine ⟨by rw [t1, List.range_eq_range']; simp, ?_, by rw [t5]; simp⟩
      intro f hf
      rw [rendered_frames_append] at hf
      rcases List.mem_append.mp hf with h | h
      · exact t4 f h
      · rw [hfr2, List.mem_range'_1] at h
        omega

/-! ## Events applied in order -/

/-- C5: for an event queue whose `time_frames` are non-decreasing and lie in
`[0, n_frames)`, `process` returns; the calls of its `switch` are those of the
queued events in queue order, and replaying all its calls reproduces the synth and
the buffers it returns (up to the cleared queue), so each handler is applied where
its call stands.  The call for the `k`-th event splits the run in two: the calls
before it render exactly the frames `0, ..., time_frames - 1` and leave the synth
`s1` with the frame counter advanced by `time_frames`; the handler is applied to
`s1`; and the calls after it, which render only frames `≥ time_frames`, lead from
the synth the handler leaves to the result of `process`. -/
theorem process_event_order [Zero β] (env : Env α χ β) (s : Synth α χ) (out : Outputs β)
    (n_frames : Nat) (hmax : 1 ≤ env.MAX_BLOCK_SIZE) (hn : n_frames < UINT_SIZE)
    (hs : events_sorted s.events) (hin : ∀ e ∈ s.events, e.time_frames < n_frames) :
    ∃ r, process env s out n_frames = some r ∧
      dispatched r.2.2 = s.events.map dispatch_call ∧
      replay env r.2.2 s (zero_float_block n_frames out.1, zero_float_block n_frames out.2) =
        some ({ r.1 with events := s.events }, r.2.1) ∧
      ∀ k e, s.events[k]? = some e → ∃ pre post s1 out1,
        r.2.2 = pre ++ dispatch_call e :: post ∧
        (dispatched pre).length = k ∧
        rendered_frames pre = List.range e.time_frames ∧
        (∀ f ∈ rendered_frames pre, f < e.time_frames) ∧
        (∀ f ∈ rendered_frames post, e.time_frames ≤ f) ∧
        replay env pre s (zero_float_block n_frames out.1, zero_float_block n_frames out.2) =
          some (s1, out1) ∧
        s1.global_frame_count = s.global_frame_count + e.time_frames ∧
        replay env post (apply_call env (dispatch_call e) s1) out1 =
          some ({ r.1 with events := s.events }, r.2.1) := by
  obtain ⟨r, hr⟩ := process_returns env hmax s out n_frames
  obtain ⟨a1, a2⟩ := process_split env s out n_frames r hr
  refine ⟨r, hr, (process_general env s out n_frames hn r hr).2.1, a1, ?_⟩
  intro k e hk
  have hmin : min e.time_frames n_frames = e.time_frames :=
    Nat.min_eq_left (Nat.le_of_lt (hin e (List.getElem?_mem hk)))
  obtain ⟨pre, post, s1, out1, p1, p2, -, p4, p5, p6⟩ := a2 k e hk
  obtain ⟨t1, t2, t3⟩ := p6 hn hs
  rw [hmin] at t1 t2 t3
  refine ⟨pre, post, s1, out1, p1, p2, t1, ?_, t2, p4, t3, p5⟩
  intro f hf
  rw [t1] at hf
  exact List.mem_range.mp hf

/-- C5 (witness): the sample synth, 64 frames: voice 0 is idle until the NOTE_ON
at frame 3 starts it, and is rendered from frame 3 on. -/
theorem process_event_order_witness :
    (1 ≤ sample_env.MAX_BLOCK_SIZE ∧ 64 < UINT_SIZE ∧ events_sorted sample_synth.events ∧
      ∀ e ∈ sample_synth.events, e.time_frames < 64) ∧
    (process sample_env sample_synth sample_out 64).map
        (fun r => (r.1.voices_.map (fun v => v.state_), r.2.2)) =
      some ([Voice.State.ACTIVE, Voice.State.ACTIVE],
        [Call.process_audio 3 0, Call.voice_process 1 0 3,
         Call.note_on 0 60 100,
         Call.process_audio 9 3, Call.voice_process 0 3 9, Call.voice_process 1 3 9,
         Call.debug 0,
         Call.process_audio 28 12, Call.voice_process 0 12 28, Call.voice_process 1 12 28,
         Call.update_cc 1 7 90,
         Call.process_audio 24 40, Call.voice_process 0 40 24, Call.voice_process 1 40 24]) ∧
    ∃ r, process sample_env sample_synth sample_out 64 = some r ∧
      dispatched r.2.2 = sample_synth.events.map dispatch_call ∧
      replay sample_env r.2.2 sample_synth
          (zero_float_block 64 sample_out.1, zero_float_block 64 sample_out.2) =
        some ({ r.1 with events := sample_synth.events }, r.2.1) :=
  ⟨⟨by decide, by decide, by decide, by decide⟩, by decide,
   (process_event_order sample_env sample_synth sample_out 64 (by decide) (by decide)
     (by decide) (by decide)).imp (fun _ h => ⟨h.1, h.2.1, h.2.2.1⟩)⟩

/-- C6: for an event queue whose `time_frames` are non-decreasing and any
`n_frames`, also with events at or beyond `n_frames`, `process` returns and
replaying its calls reproduces its result.  The `k`-th event is applied at offset
`min (time_frames, n_frames)`: the calls before its handler call render exactly
the frames `0, ..., min (time_frames, n_frames) - 1` and leave the synth `s1`, with
the frame counter advanced by that offset, to which the handler is applied, and
the remaining calls lead from there to the result.  The slices passed to
`process_audio` follow each other starting at 0, each satisfies
`offset + length ≤ n_frames`, and the frames rendered are `0, ..., n_frames - 1`,
so none has an index `≥ n_frames`. -/
theorem process_slices_in_block [Zero β] (env : Env α χ β) (s : Synth α χ)
    (out : Outputs β) (n_frames : Nat) (hmax : 1 ≤ env.MAX_BLOCK_SIZE)
    (hn : n_frames < UINT_SIZE) (hs : events_sorted s.events) :
    ∃ r, process env s out n_frames = some r ∧
      replay env r.2.2 s (zero_float_block n_frames out.1, zero_float_block n_frames out.2) =
        some ({ r.1 with events := s.events }, r.2.1) ∧
      (∀ k e, s.events[k]? = some e → ∃ pre post s1 out1,
        r.2.2 = pre ++ dispatch_call e :: post ∧
        (dispatched pre).length = k ∧
        rendered_frames pre = List.range (min e.time_frames n_frames) ∧
        (∀ f ∈ rendered_frames post, min e.time_frames n_frames ≤ f) ∧
        replay env pre s (zero_float_block n_frames out.1, zero_float_block n_frames out.2) =
          some (s1, out1) ∧
        s1.global_frame_count = s.global_frame_count + min e.time_frames n_frames ∧
        replay env post (apply_call env (dispatch_call e) s1) out1 =
          some ({ r.1 with events := s.events }, r.2.1)) ∧
      consecutive_from 0 (audio_slices r.2.2) ∧
      (∀ p ∈ audio_slices r.2.2, p.1 + p.2 ≤ n_frames) ∧
      rendered_frames r.2.2 = List.range n_frames ∧
      (∀ f ∈ rendered_frames r.2.2, f < n_frames) := by
  obtain ⟨r, hr⟩ := process_returns env hmax s out n_frames
  obtain ⟨-, h2, h3, h4, -⟩ := process_sorted env s out n_frames hn hs r hr
  obtain ⟨a1, a2⟩ := process_split env s out n_frames r hr
  refine ⟨r, hr, a1, ?_, h3, h4, h2, ?_⟩
  · intro k e hk
    obtain ⟨pre, post, s1, out1, p1, p2, -, p4, p5, p6⟩ := a2 k e hk
    obtain ⟨t1, t2, t3⟩ := p6 hn hs
    exact ⟨pre, post, s1, out1, p1, p2, t1, t2, p4, t3, p5⟩
  · intro f hf
    rw [h2] at hf
    exact List.mem_range.mp hf

/-- C6 (witness): the sample synth with a block of 16 frames; its third event, at
frame 40, lies beyond the block and is applied after the 16 frames, before an
empty last slice. -/
theorem process_slices_in_block_witness :
    (1 ≤ sample_env.MAX_BLOCK_SIZE ∧ 16 < UINT_SIZE ∧ events_sorted sample_synth.events) ∧
    (process sample_env sample_synth sample_out 16).map (fun r => r.2.2) =
      some [Call.process_audio 3 0, Call.voice_process 1 0 3,
         Call.note_on 0 60 100,
         Call.process_audio 9 3, Call.voice_process 0 3 9, Call.voice_process 1 3 9,
         Call.debug 0,
         Call.process_audio 4 12, Call.voice_process 0 12 4, Call.voice_process 1 12 4,
         Call.update_cc 1 7 90,
         Call.process_audio 0 16] ∧
    ∃ r, process sample_env sample_synth sample_out 16 = some r ∧
      replay sample_env r.2.2 sample_synth
          (zero_float_block 16 sample_out.1, zero_float_block 16 sample_out.2) =
        some ({ r.1 with events := sample_synth.events }, r.2.1) ∧
      consecutive_from 0 (audio_slices r.2.2) ∧
      (∀ p ∈ audio_slices r.2.2, p.1 + p.2 ≤ 16) ∧
      rendered_frames r.2.2 = List.range 16 :=
  ⟨⟨by decide, by decide, by decide⟩, by decide,
   (process_slices_in_block sample_env sample_synth sample_out 16 (by decide) (by decide)
     (by decide)).imp (fun _ h => ⟨h.1, h.2.1, h.2.2.2.1, h.2.2.2.2.1, h.2.2.2.2.2.1⟩)⟩

/-- With an empty queue `process` is one `process_audio` call over the zeroed
buffers. -/
theorem process_empty_queue [Zero β] (env : Env α χ β) (s : Synth α χ) (out : Outputs β)
    (n_frames : Nat) (hn : n_frames < UINT_SIZE) (hev : s.events = [])
    (r : Synth α χ × Outputs β × List Call) (hr : process env s out n_frames = some r) :
    process_audio env s (zero_float_block n_frames out.1, zero_float_block n_frames out.2)
      n_frames 0 = some r := by
  obtain ⟨r1, r2, hr1, hr2, rfl⟩ := process_inv env s out n_frames r hr
  rw [hev, process_events] at hr1
  cases hr1
  have hsub : uint_sub n_frames 0 = n_frames := uint_sub_of_le _ _ (Nat.zero_le _) hn
  rw [hsub] at hr2
  have h := process_audio_events env s _ n_frames 0 [] r2 hr2
  have he : r2.1.events = [] := (process_audio_result env _ _ _ _ r2 hr2).2.1
  have hfix : ({ r2.1 with events := s.events } : Synth α χ) = r2.1 := by
    rw [hev, ← he]
  rw [h, hfix]
  rfl

/-- C7: for every queue and every `n_frames`, `process` returns with an empty
event queue.  The calls its `switch` has made are exactly those of the queued
events, one per event and in queue order, with a handler call for each event of a
supported type; replaying the calls of the run reproduces the synth and buffers it
returns, and for the `k`-th event the handler is applied once, to the synth the
earlier calls leave, and only the calls of the later events follow.  A following
`process` call (nothing queued in between) is a single `process_audio` call: it
dispatches no event and applies no handler. -/
theorem process_consumes_events [Zero β] (env : Env α χ β) (s : Synth α χ)
    (out : Outputs β) (n_frames : Nat) (hmax : 1 ≤ env.MAX_BLOCK_SIZE)
    (hn : n_frames < UINT_SIZE) :
    ∃ r, process env s out n_frames = some r ∧
      r.1.events = [] ∧
      dispatched r.2.2 = s.events.map dispatch_call ∧
      (dispatched r.2.2).length = s.events.length ∧
      handler_calls r.2.2 = (s.events.filter Event.supported).map dispatch_call ∧
      replay env r.2.2 s (zero_float_block n_frames out.1, zero_float_block n_frames out.2) =
        some ({ r.1 with events := s.events }, r.2.1) ∧
      (∀ k e, s.events[k]? = some e → ∃ pre post s1 out1,
        r.2.2 = pre ++ dispatch_call e :: post ∧
        (dispatched pre).length = k ∧
        dispatched post = (s.events.drop (k + 1)).map dispatch_call ∧
        replay env pre s (zero_float_block n_frames out.1, zero_float_block n_frames out.2) =
          some (s1, out1) ∧
        replay env post (apply_call env (dispatch_call e) s1) out1 =
          some ({ r.1 with events := s.events }, r.2.1)) ∧
      ∀ (out2 : Outputs β) (n2 : Nat), n2 < UINT_SIZE →
        ∃ r2, process env r.1 out2 n2 = some r2 ∧ r2.1.events = [] ∧
          dispatched r2.2.2 = [] ∧ handler_calls r2.2.2 = [] ∧
          process_audio env r.1 (zero_float_block n2 out2.1, zero_float_block n2 out2.2) n2 0 =
            some r2 := by
  obtain ⟨r, hr⟩ := process_returns env hmax s out n_frames
  obtain ⟨h1, h2, -⟩ := process_general env s out n_frames hn r hr
  obtain ⟨a1, a2⟩ := process_split env s out n_frames r hr
  refine ⟨r, hr, h1, h2, by rw [h2, List.length_map], ?_, a1, ?_, ?_⟩
  · rw [← handler_calls_dispatched, h2, handler_calls_map_dispatch_call]
  · intro k e hk
    obtain ⟨pre, post, s1, out1, p1, p2, p3, p4, p5, -⟩ := a2 k e hk
    exact ⟨pre, post, s1, out1, p1, p2, p3, p4, p5⟩
  · intro out2 n2 hn2
    obtain ⟨r2, hr2⟩ := process_returns env hmax r.1 out2 n2
    obtain ⟨g1, g2, -⟩ := process_general env r.1 out2 n2 hn2 r2 hr2
    rw [h1, List.map_nil] at g2
    refine ⟨r2, hr2, g1, g2, handler_calls_of_dispatched_nil _ g2, ?_⟩
    exact process_empty_queue env r.1 out2 n2 hn2 h1 r2 hr2

/-- C7 (witness): the sample synth, 64 frames: three events queued, three calls of
the `switch`, two of them handler calls, the queue empty afterwards. -/
theorem process_consumes_events_witness :
    (1 ≤ sample_env.MAX_BLOCK_SIZE ∧ 64 < UINT_SIZE) ∧
    (process sample_env sample_synth sample_out 64).map
        (fun r => (r.1.events, r.1.voices_.map (fun v => v.state_), dispatched r.2.2)) =
      some ([], [Voice.State.ACTIVE, Voice.State.ACTIVE],
        [Call.note_on 0 60 100, Call.debug 0, Call.update_cc 1 7 90]) ∧
    ∃ r, process sample_env sample_synth sample_out 64 = some r ∧
      r.1.events = [] ∧
      dispatched r.2.2 = sample_synth.events.map dispatch_call ∧
      (dispatched r.2.2).length = sample_synth.events.length ∧
      handler_calls r.2.2 = (sample_synth.events.filter Event.supported).map dispatch_call ∧
      replay sample_env r.2.2 sample_synth
          (zero_float_block 64 sample_out.1, zero_float_block 64 sample_out.2) =
        some ({ r.1 with events := sample_synth.events }, r.2.1) :=
  ⟨⟨by decide, by decide⟩, by decide,
   (process_consumes_events sample_env sample_synth sample_out 64 (by decide)
     (by decide)).imp
     (fun _ h => ⟨h.1, h.2.1, h.2.2.1, h.2.2.2.1, h.2.2.2.2.1, h.2.2.2.2.2.1⟩)⟩

/-- C17 (counterexample): with a CC event at frame 10 queued before an event of an
unsupported type at frame 5 and `n_frames = 16`, `process` hands `process_audio` the
frame counts `10`, `5 - 10 = 4294967291` (unsigned) and `16 - 5 = 11`: it does not
render the 16 frames of the block. -/
theorem unsupported_event_frames_fail :
    unsorted_unsupported_synth.events[1]? = some ⟨5, EventType.other 0, 0, 0, 0⟩ ∧
    ∃ r, process sample_env unsorted_unsupported_synth sample_out 16 = some r ∧
      audio_frame_counts r.2.2 = [10, 4294967291, 11] ∧
      (audio_frame_counts r.2.2).sum ≠ 16 := by
  refine ⟨by decide, ?_⟩
  obtain ⟨r, hr⟩ := process_returns sample_env (by decide) unsorted_unsupported_synth
    sample_out 16
  have h := (process_general sample_env unsorted_unsupported_synth sample_out 16 (by decide)
    r hr).2.2.2.2
  have hc : audio_frame_counts r.2.2 = [10, 4294967291, 11] := by
    rw [h]; decide
  refine ⟨r, hr, hc, ?_⟩
  rw [hc]; decide

/-- C17 (amended): an event of a type other than NOTE_ON, NOTE_OFF, CC, PITCH_BEND
makes the `switch` of `process` call `debug` and none of the four handlers and
leaves the synth as it is.  `process` still returns; replaying its calls
reproduces its result; the calls before the `debug` call of the event leave a
synth `s1`, and the calls after it, among them the handler calls of all later
events in queue order, lead from that same `s1` to the result.  The handler calls
of the run are those of the supported events.  The frame counts rendered sum to
`n_frames` modulo `2^32`, and when the queue is in non-decreasing time order the
frames rendered are exactly `0, ..., n_frames - 1`. -/
theorem unsupported_event_skipped [Zero β] (env : Env α χ β) (s : Synth α χ)
    (out : Outputs β) (n_frames : Nat) (hmax : 1 ≤ env.MAX_BLOCK_SIZE)
    (hn : n_frames < UINT_SIZE) (k : Nat) (e : Event) (code : Nat)
    (hk : s.events[k]? = some e) (htype : e.type = EventType.other code) :
    dispatch_call e = Call.debug code ∧
    handler_calls [dispatch_call e] = [] ∧
    (∀ s2 : Synth α χ, dispatch env s2 e = s2 ∧ apply_call env (dispatch_call e) s2 = s2) ∧
    ∃ r, process env s out n_frames = some r ∧
      dispatched r.2.2 = s.events.map dispatch_call ∧
      handler_calls r.2.2 = (s.events.filter Event.supported).map dispatch_call ∧
      replay env r.2.2 s (zero_float_block n_frames out.1, zero_float_block n_frames out.2) =
        some ({ r.1 with events := s.events }, r.2.1) ∧
      (∃ pre post s1 out1,
        r.2.2 = pre ++ Call.debug code :: post ∧
        (dispatched pre).length = k ∧
        dispatched post = (s.events.drop (k + 1)).map dispatch_call ∧
        replay env pre s (zero_float_block n_frames out.1, zero_float_block n_frames out.2) =
          some (s1, out1) ∧
        replay env post s1 out1 = some ({ r.1 with events := s.events }, r.2.1)) ∧
      (audio_frame_counts r.2.2).sum % UINT_SIZE = n_frames ∧
      (events_sorted s.events →
        rendered_frames r.2.2 = List.range n_frames ∧
        (audio_frame_counts r.2.2).sum = n_frames) := by
  have hcall : dispatch_call e = Call.debug code := by
    unfold dispatch_call; rw [htype]
  have hskip : ∀ s2 : Synth α χ, apply_call env (dispatch_call e) s2 = s2 := by
    intro s2; rw [hcall]; rfl
  refine ⟨hcall, by rw [hcall]; rfl, ?_, ?_⟩
  · intro s2
    exact ⟨by unfold dispatch; rw [htype], hskip s2⟩
  · obtain ⟨r, hr⟩ := process_returns env hmax s out n_frames
    obtain ⟨-, g2, -, g4, -⟩ := process_general env s out n_frames hn r hr
    obtain ⟨a1, a2⟩ := process_split env s out n_frames r hr
    refine ⟨r, hr, g2, ?_, a1, ?_, g4, ?_⟩
    · rw [← handler_calls_dispatched, g2, handler_calls_map_dispatch_call]
    · obtain ⟨pre, post, s1, out1, p1, p2, p3, p4, p5, -⟩ := a2 k e hk
      rw [hskip s1] at p5
      rw [hcall] at p1
      exact ⟨pre, post, s1, out1, p1, p2, p3, p4, p5⟩
    · intro hs
      obtain ⟨q1, q2, -⟩ := process_sorted env s out n_frames hn hs r hr
      exact ⟨q2, q1⟩

/-- C17 (witness): the second event of the sample synth has an unsupported type;
the NOTE_ON before it and the CC after it are applied. -/
theorem unsupported_event_skipped_witness :
    (1 ≤ sample_env.MAX_BLOCK_SIZE ∧ 64 < UINT_SIZE ∧
      sample_synth.events[1]? = some ⟨12, EventType.other 0, 0, 0, 0⟩) ∧
    ∃ r, process sample_env sample_synth sample_out 64 = some r ∧
      dispatched r.2.2 =
        [Call.note_on 0 60 100, Call.debug 0, Call.update_cc 1 7 90] ∧
      handler_calls r.2.2 = [Call.note_on 0 60 100, Call.update_cc 1 7 90] ∧
      replay sample_env r.2.2 sample_synth
          (zero_float_block 64 sample_out.1, zero_float_block 64 sample_out.2) =
        some ({ r.1 with events := sample_synth.events }, r.2.1) ∧
      rendered_frames r.2.2 = List.range 64 :=
  ⟨⟨by decide, by decide, by decide⟩,
   (unsupported_event_skipped sample_env sample_synth sample_out 64 (by decide) (by decide) 1
      ⟨12, EventType.other 0, 0, 0, 0⟩ 0 (by decide) rfl).2.2.2.imp
     (fun _ h => ⟨h.1, h.2.1, h.2.2.1, h.2.2.2.1, (h.2.2.2.2.2.2 (by decide)).1⟩)⟩

/-! ## One `<region>` block per layer read -/

set_option maxRecDepth 100000 in
/-- C15 (counterexample): for the single region with `lovel = -2147483647` and
`hivel = -5` and velocity 1 the difference `1 - lovel = 2^31` overflows `int`; in
32 bit arithmetic `abs` of it is `-2^31 < 128`, so the velocity is assigned to the
region, while the reference, with `|v - lovel| = 2^31 ≥ 128`, assigns it to none. -/
theorem note_region_reference_fails :
    note_region [⟨"x", -2147483647, -5⟩] 1 = some 0 ∧
    reference_assign [⟨"x", -2147483647, -5⟩] ((1 : Nat) : Int) = none ∧
    ¬ lovel_in_range [⟨"x", -2147483647, -5⟩] :=
  ⟨by decide, by decide, by decide⟩

theorem sample_lines_append (a b : List Line) :
    sample_lines (a ++ b) = sample_lines a ++ sample_lines b := by
  induction a with
  | nil => rfl
  | cons l ls ih => cases l <;> simp [sample_lines, ih]

theorem emit_regions_samples (rs : List Region) (st : ParseState) :
    ∃ lines, (emit_regions rs st).out = st.out ++ lines ∧ region_blocks lines = rs.length ∧
      sample_lines lines = rs.map Region.sample := by
  obtain ⟨-, -, -, lines, h4, h5, h6⟩ := emit_regions_spec rs st
  refine ⟨lines, h4, h5, ?_⟩
  rw [h6]
  clear h4 h5 h6
  induction rs with
  | nil => rfl
  | cons r rs ih =>
    simp only [List.map_cons, List.flatten_cons, sample_lines_append, ih]
    rfl

theorem emit_filename_samples (filename : Option String) (st : ParseState) :
    ∃ lines, (emit_filename filename st).out = st.out ++ lines ∧
      region_blocks lines = (if filename.isSome then 1 else 0) ∧
      sample_lines lines = filename.toList := by
  cases filename with
  | none => exact ⟨[], by simp [emit_filename], rfl, rfl⟩
  | some s =>
    refine ⟨[Line.region_header, Line.sample s, Line.blank], rfl, ?_, rfl⟩
    simp [region_blocks, List.count_cons]

/-- The text one pass of the instrument loop of `parse` appends. -/
theorem parse_instrument_samples (instrument : Instrument) (st : ParseState) :
    ∃ lines, (parse_instrument instrument st).out = st.out ++ lines ∧
      region_blocks lines = instrument_regions instrument ∧
      sample_lines lines =
        (instrument.component_layers ++ instrument.layers).map Region.sample ++
          instrument.filename.toList := by
  unfold parse_instrument
  simp only
  generalize hst1 : ({ st with
      out := st.out ++ [Line.comment instrument.name, Line.group_header,
        Line.key (st.instrument_index + 36), Line.loop_mode, Line.amp_velcurve,
        Line.group st.group, Line.off_by st.group, Line.volume instrument.volume,
        Line.blank] } : ParseState) = st1
  have ho1 : st1.out = st.out ++ [Line.comment instrument.name, Line.group_header,
        Line.key (st.instrument_index + 36), Line.loop_mode, Line.amp_velcurve,
        Line.group st.group, Line.off_by st.group, Line.volume instrument.volume,
        Line.blank] := by rw [← hst1]
  obtain ⟨l2, e1, e2, e3⟩ :=
    emit_regions_samples (cleanup_regions (instrument.component_layers ++ instrument.layers)) st1
  obtain ⟨l3, f1, f2, f3⟩ := emit_filename_samples instrument.filename
    (emit_regions (cleanup_regions (instrument.component_layers ++ instrument.layers)) st1)
  rw [cleanup_regions_length, List.length_append] at e2
  rw [show (cleanup_regions (instrument.component_layers ++ instrument.layers)).map
      Region.sample = (instrument.component_layers ++ instrument.layers).map Region.sample from
    rewrite_regions_samples _ _ 0] at e3
  refine ⟨[Line.comment instrument.name, Line.group_header,
        Line.key (st.instrument_index + 36), Line.loop_mode, Line.amp_velcurve,
        Line.group st.group, Line.off_by st.group, Line.volume instrument.volume,
        Line.blank] ++ l2 ++ l3 ++ [Line.blank], ?_, ?_, ?_⟩
  · show (emit_filename _ _).out ++ [Line.blank] = _
    rw [f1, e1, ho1]
    simp
  · unfold region_blocks at *
    rw [List.count_append, List.count_append, List.count_append, e2, f2]
    unfold instrument_regions
    simp [List.count_cons]
  · rw [sample_lines_append, sample_lines_append, sample_lines_append, e3, f3]
    simp [sample_lines]

theorem parse_instruments_samples (instruments : List Instrument) (st : ParseState) :
    ∃ lines, (parse_instruments instruments st).out = st.out ++ lines ∧
      region_blocks lines = (instruments.map instrument_regions).sum ∧
      sample_lines lines =
        (instruments.map (fun i =>
          (i.component_layers ++ i.layers).map Region.sample ++ i.filename.toList)).flatten := by
  induction instruments generalizing st with
  | nil => exact ⟨[], by simp [parse_instruments], rfl, rfl⟩
  | cons i is ih =>
    obtain ⟨l1, p1, p2, p3⟩ := parse_instrument_samples i st
    obtain ⟨l2, q1, q2, q3⟩ := ih (parse_instrument i st)
    refine ⟨l1 ++ l2, ?_, ?_, ?_⟩
    · rw [parse_instruments, q1, p1]; simp
    · unfold region_blocks at *
      rw [List.count_append, p2, q2]; simp
    · rw [sample_lines_append, p3, q3]; simp

set_option maxRecDepth 100000 in
/-- C19 (counterexample): an instrument with two `<instrumentComponent>` children
of one layer each has two layers, but `parse` reads the first component only and
appends a single `<region>` block, for `snare_a.wav`. -/
theorem parse_skips_later_components :
    (two_component_kit.map node_layers).sum = 2 ∧
    region_blocks (parse_document (some two_component_kit) []).2 = 1 ∧
    sample_lines (parse_document (some two_component_kit) []).2 = ["snare_a.wav"] :=
  ⟨by decide, by decide, by decide⟩

/-- C19 (amended): `cleanup_regions` returns a list of the same length whose
sample names are those of the input, index by index, so only `lovel` and `hivel`
can differ; and `parse` appends exactly one `<region>` block, with the sample name
of the layer, for every layer it reads: for each instrument in document order the
layers of its first `<instrumentComponent>`, then its own `<layer>` children, then
one block for its own `<filename>` when it has one.  The layers of a second or
later `<instrumentComponent>` get no block; an instrument with at most one
component gets one block per layer. -/
theorem cleanup_regions_keeps_samples (regions : List Region) :
    (cleanup_regions regions).length = regions.length ∧
    (cleanup_regions regions).map Region.sample = regions.map Region.sample ∧
    (∀ i : Nat, ((cleanup_regions regions)[i]?).map Region.sample =
      (regions[i]?).map Region.sample) ∧
    (∀ (nodes : List InstrumentNode) (out : List Line),
      ∃ lines, (parse_document (some nodes) out).2 = out ++ lines ∧
        region_blocks lines =
          (nodes.map (fun nd => (nd.components.headD []).length + nd.layers.length +
            (if nd.filename.isSome then 1 else 0))).sum ∧
        sample_lines lines =
          (nodes.map (fun nd => (nd.components.headD [] ++ nd.layers).map Region.sample ++
            nd.filename.toList)).flatten ∧
        ((∀ nd ∈ nodes, nd.components.length ≤ 1 ∧ nd.filename = none) →
          region_blocks lines = (nodes.map node_layers).sum)) := by
  have hs : (cleanup_regions regions).map Region.sample = regions.map Region.sample :=
    rewrite_regions_samples (note_region regions) regions 0
  refine ⟨cleanup_regions_length regions, hs, ?_, ?_⟩
  · intro i
    have := congrArg (fun l : List String => l[i]?) hs
    simpa using this
  · intro nodes out
    obtain ⟨lines, h1, h2, h3⟩ := parse_instruments_samples (nodes.map read_instrument)
      { instrument_index := 0, region_count := 0, group := 1, out := out }
    have hblocks : region_blocks lines =
        (nodes.map (fun nd => (nd.components.headD []).length + nd.layers.length +
          (if nd.filename.isSome then 1 else 0))).sum := by
      rw [h2, List.map_map]
      rfl
    refine ⟨lines, ?_, hblocks, ?_, ?_⟩
    · unfold parse_document parse
      simp only [Option.map_some']
      split_ifs <;> exact h1
    · rw [h3, List.map_map]
      rfl
    · intro hone
      rw [hblocks]
      apply congrArg
      apply List.map_congr_left
      intro nd hnd
      obtain ⟨hc, hf⟩ := hone nd hnd
      unfold node_layers
      rw [hf]
      cases hcomp : nd.components with
      | nil => simp
      | cons c cs =>
        rw [hcomp] at hc
        have hcs : cs = [] := by
          cases cs with
          | nil => rfl
          | cons _ _ => simp at hc
        subst hcs
        simp

end

end LiquidSFZInternal
